import Mathlib

/-!
Verification of the Connect-4 engine pair (minimax with optional alpha-beta
pruning, and Monte-Carlo tree search) from the `mcts-vs-minimax-connect4`
repository, against its natural-language specification.

The Python sources are shallowly embedded:
* `Connect4` (src/connect4.py): board as a list of row lists of `Nat`
  (0 = empty, 1/2 = players), with the exact loop bounds of the source,
  including the Python negative-index wrap-around where the source relies on it;
* `minimax_basic` / `minimax_ab` (src/minimax.py): scores in
  `EInt := WithBot (WithTop ℤ)` so that the source `-inf` / `inf`
  sentinels are represented faithfully;
* MCTS (src/mcts.py): trees as an inductive type, parent pointers replaced by
  root-paths, and every `random.choice` driven by an explicit tape
  `τ : Nat → Nat` (`random.choice(l)` becomes `l[τ k % l.length]` with a
  fresh tape index `k` per call).
-/

namespace C4


/-- Extended integers: the score domain of the searches (`-inf`/`inf` of the
Python source become `⊥`/`⊤`). -/
abbrev EInt := WithBot (WithTop ℤ)

/-- Embed a plain integer score into `EInt`. -/
def toE (z : ℤ) : EInt := ((z : WithTop ℤ) : EInt)

/-- Game state of `Connect4.__init__`: dimensions, board (row-major list of
rows, each a list of cells, 0 empty / 1 / 2), and the current player. -/
structure Connect4 where
  rows : Nat
  cols : Nat
  board : List (List Nat)
  current_player : Nat
deriving DecidableEq, Repr

/-- Cell lookup `board[r][c]` (both indices non-negative and in range in
every place this is used). -/
def cell (g : Connect4) (r c : Nat) : Nat := (g.board.getD r []).getD c 0

/-- Python list indexing with the negative-index wrap-around
(`l[-k]` is `l[len l - k]`); out-of-range behaviour is irrelevant to
any theorem below. -/
def pyIdx {α : Type} (l : List α) (d : α) (i : Int) : α :=
  if 0 ≤ i then l.getD i.toNat d else l.getD (l.length - (-i).toNat) d

/-- Cell lookup with Python `int` indices, as performed by
`is_winning_move` (its negative-diagonal scan can produce a negative column
index, which Python silently wraps around). -/
def cellI (g : Connect4) (r c : Int) : Nat := pyIdx (pyIdx g.board [] r) 0 c

/-- Python `range(a, b)` (ascending, end exclusive), over `Int`. -/
def rangeAsc (a b : Int) : List Int :=
  (List.range (b - a).toNat).map (fun i => a + (i : Int))

/-- Python `range(a, b, -1)` (descending, end exclusive), over `Int`. -/
def rangeDesc (a b : Int) : List Int :=
  (List.range (a - b).toNat).map (fun i => a - (i : Int))

/-- Source `Connect4.is_valid_location`: the top cell of the column is empty. -/
def is_valid_location (g : Connect4) (col : Nat) : Bool := cell g 0 col = 0

/-- Source `Connect4.get_valid_moves`: the valid columns in ascending order. -/
def get_valid_moves (g : Connect4) : List Nat :=
  (List.range g.cols).filter (fun col => is_valid_location g col)

/-- Source `Connect4.get_next_open_row`: scan rows bottom-up, first empty cell. -/
def get_next_open_row (g : Connect4) (col : Nat) : Option Nat :=
  ((List.range g.rows).map (fun i => g.rows - 1 - i)).find?
    (fun r => cell g r col = 0)

/-- Write a single cell (`self.board[row][col] = v`). -/
def setCell (g : Connect4) (row col v : Nat) : Connect4 :=
  { g with board := g.board.set row ((g.board.getD row []).set col v) }

/-- Source `Connect4.simulate_move`: place the token of `player` in the lowest empty row
of `col` and return the undo information together with the updated state
(the in-place mutation of the source becomes an explicit new state).
`none` corresponds to the `row = None` crash of the source on a full
column, which callers exclude by checking legality first. -/
def simulate_move (g : Connect4) (col player : Nat) :
    Option ((Nat × Nat) × Connect4) :=
  (get_next_open_row g col).map (fun row => ((row, col), setCell g row col player))

/-- Source `Connect4.undo_move`: clear the cell named by the undo information. -/
def undo_move (g : Connect4) (undo_info : Nat × Nat) : Connect4 :=
  setCell g undo_info.1 undo_info.2 0

/-- The state after `simulate_move g col player` when `col` is playable,
and `g` itself otherwise; the searches only ever take the first branch. -/
def simChild (g : Connect4) (col player : Nat) : Connect4 :=
  match simulate_move g col player with
  | some (_, g2) => g2
  | none => g

/-- Win scan at one cell, in the exact check order of
`Connect4.get_game_state` (horizontal, vertical, positive diagonal,
negative diagonal). -/
def winAt (g : Connect4) (row col : Nat) : Option Nat :=
  let v := cell g row col
  if v ≠ 0 then
    if col + 4 ≤ g.cols ∧ (List.range 4).all (fun i => cell g row (col + i) = v) then
      some v
    else if row + 4 ≤ g.rows ∧ (List.range 4).all (fun i => cell g (row + i) col = v) then
      some v
    else if row + 4 ≤ g.rows ∧ col + 4 ≤ g.cols ∧
        (List.range 4).all (fun i => cell g (row + i) (col + i) = v) then
      some v
    else if row + 4 ≤ g.rows ∧ 3 ≤ col ∧
        (List.range 4).all (fun i => cell g (row + i) (col - i) = v) then
      some v
    else none
  else none

/-- Source `Connect4.get_game_state`: scan all cells in row-major order and return
the first winner found; 3 when the top row is full, 0 otherwise. -/
def get_game_state (g : Connect4) : Nat :=
  match ((List.range g.rows).flatMap
      (fun row => (List.range g.cols).map (fun col => (row, col)))).findSome?
      (fun rc => winAt g rc.1 rc.2) with
  | some p => p
  | none =>
      if (List.range g.cols).all (fun col => cell g 0 col ≠ 0) then 3 else 0

/-- Source `Connect4.evaluate_window`: score one 4-cell window for `player`. -/
def evaluate_window (window : List Nat) (player : Nat) : ℤ :=
  let opponent := 3 - player
  let player_count := window.count player
  let opponent_count := window.count opponent
  let empty_count := window.count 0
  (if player_count = 3 ∧ empty_count = 1 then (100 : ℤ)
   else if player_count = 2 ∧ empty_count = 2 then 10 else 0)
  + (if opponent_count = 3 ∧ empty_count = 1 then (-100 : ℤ)
     else if opponent_count = 2 ∧ empty_count = 2 then -10 else 0)

/-- Horizontal loop of `evaluate_position`, with the row bound of the source
`range(self.rows-3)` (only rows `0 .. rows-4` are scanned). -/
def horizontalScore (g : Connect4) (player : Nat) : ℤ :=
  (((List.range (g.rows - 3)).map (fun row =>
    (((List.range (g.cols - 3)).map (fun col =>
      evaluate_window ((List.range 4).map (fun i => cell g row (col + i))) player))).sum)).sum)

/-- Vertical loop of `evaluate_position` (all columns, window starts
`0 .. rows-4`). -/
def verticalScore (g : Connect4) (player : Nat) : ℤ :=
  (((List.range g.cols).map (fun col =>
    (((List.range (g.rows - 3)).map (fun row =>
      evaluate_window ((List.range 4).map (fun i => cell g (row + i) col)) player))).sum)).sum)

/-- Positive-diagonal loop of `evaluate_position`. -/
def posDiagScore (g : Connect4) (player : Nat) : ℤ :=
  (((List.range (g.rows - 3)).map (fun row =>
    (((List.range (g.cols - 3)).map (fun col =>
      evaluate_window ((List.range 4).map (fun i => cell g (row + i) (col + i))) player))).sum)).sum)

/-- Negative-diagonal loop of `evaluate_position` (`range(3, rows)`). -/
def negDiagScore (g : Connect4) (player : Nat) : ℤ :=
  (((List.range' 3 (g.rows - 3)).map (fun row =>
    (((List.range (g.cols - 3)).map (fun col =>
      evaluate_window ((List.range 4).map (fun i => cell g (row - i) (col + i))) player))).sum)).sum)

/-- The complete sliding-window component of `evaluate_position` as the code
computes it (all four directional loops). -/
def windowScore (g : Connect4) (player : Nat) : ℤ :=
  horizontalScore g player + verticalScore g player
    + posDiagScore g player + negDiagScore g player

/-- Center-bonus loop of `evaluate_position`
(`CENTER_BONUS = 3`, `center_col = cols // 2`). -/
def centerBonus (g : Connect4) (player : Nat) : ℤ :=
  (((List.range g.rows).map (fun row =>
    (((List.range g.cols).map (fun col =>
      if cell g row col = player then
        max 0 ((3 : ℤ) - |(col : ℤ) - (g.cols / 2 : Nat)|)
      else 0)).sum))).sum)

/-- Source `Connect4.evaluate_position`: saturating terminal scores, else window
sums plus the center bonus. -/
def evaluate_position (g : Connect4) (player : Nat) : ℤ :=
  let game_state := get_game_state g
  if game_state = player then 1000
  else if game_state = 3 - player then -1000
  else if game_state = 3 then 0
  else windowScore g player + centerBonus g player

/-- Source `Connect4.is_winning_move`: the bounded four-direction scan through one
cell, with the clamped `range`s of the source, `zip` truncation on the two
diagonal scans, and the Python negative-index wrap-around on the
negative-diagonal column index. -/
def is_winning_move (g : Connect4) (row col : Int) : Bool :=
  let P := g.current_player
  ((rangeAsc (max 0 (col - 3)) (min ((g.cols : Int) - 3) (col + 1))).any (fun c =>
      (List.range 4).all (fun i => cellI g row (c + (i : Int)) = P)))
  || ((rangeAsc (max 0 (row - 3)) (min ((g.rows : Int) - 3) (row + 1))).any (fun r =>
      (List.range 4).all (fun i => cellI g (r + (i : Int)) col = P)))
  || (((rangeAsc (max 0 (row - 3)) (min ((g.rows : Int) - 3) (row + 1))).zip
       (rangeAsc (max 0 (col - 3)) (min ((g.cols : Int) - 3) (col + 1)))).any (fun rc =>
      (List.range 4).all (fun i => cellI g (rc.1 + (i : Int)) (rc.2 + (i : Int)) = P)))
  || (((rangeAsc (max 0 (row - 3)) (min ((g.rows : Int) - 3) (row + 1))).zip
       (rangeDesc (min ((g.cols : Int) - 1) (col + 3)) (max (-1) (col - 4)))).any (fun rc =>
      (List.range 4).all (fun i => cellI g (rc.1 + (i : Int)) (rc.2 - (i : Int)) = P)))

/-- Fresh game (`Connect4(rows, cols)`): all-zero board, player 1 to move. -/
def initGame (rows cols : Nat) : Connect4 :=
  ⟨rows, cols, List.replicate rows (List.replicate cols 0), 1⟩

/-! ### Spec-side definitions (formalizing the words of the claims, for comparison
with the code-side definitions above) -/

/-- Horizontal sliding-window sum as the specification describes it: windows
in EVERY row of the board (`row ∈ range rows`), not only `range (rows-3)`. -/
def specHorizontalScore (g : Connect4) (player : Nat) : ℤ :=
  (((List.range g.rows).map (fun row =>
    (((List.range (g.cols - 3)).map (fun col =>
      evaluate_window ((List.range 4).map (fun i => cell g row (col + i))) player))).sum)).sum)

/-- Sliding-window sum over every contiguous 4-cell window in all four
directions, as the specification describes it (the vertical and diagonal
loops of the code already cover all windows of their direction, so they are
reused; only the horizontal part differs from the code). -/
def specWindowScore (g : Connect4) (player : Nat) : ℤ :=
  specHorizontalScore g player + verticalScore g player
    + posDiagScore g player + negDiagScore g player

/-- The reading the claim gives of `is_winning_move`: some contiguous in-bounds
4-cell window passing through the given cell, in one of the four directions,
consists entirely of tokens of player `p`. -/
def claimJustWon (g : Connect4) (p : Nat) (row col : Int) : Bool :=
  [((0 : Int), (1 : Int)), (1, 0), (1, 1), (1, -1)].any (fun d =>
    (List.range 4).any (fun k =>
      (List.range 4).all (fun i =>
        let r := row + ((i : Int) - (k : Int)) * d.1
        let c := col + ((i : Int) - (k : Int)) * d.2
        0 ≤ r ∧ r < (g.rows : Int) ∧ 0 ≤ c ∧ c < (g.cols : Int) ∧ cellI g r c = p)))

/-- The center bonus of the claim: for each cell holding the perspective
own token, `max(0, 3 − |column − centerColumn|)` with
`centerColumn = cols // 2`; nothing for any other cell. -/
def claimCenterBonus (g : Connect4) (p : Nat) : ℤ :=
  ∑ row ∈ Finset.range g.rows, ∑ col ∈ Finset.range g.cols,
    if cell g row col = p then
      max 0 ((3 : ℤ) - |(col : ℤ) - ((g.cols / 2 : Nat) : ℤ)|)
    else 0

/-! ### Concrete boards used as inputs of counterexamples and bug exhibits -/

/-- Board with player-1 tokens on the bottom row at columns 0,1,2 and
nothing else (as after three consecutive player-1 drops). -/
def B1 : Connect4 :=
  ⟨6, 7, [[0,0,0,0,0,0,0],[0,0,0,0,0,0,0],[0,0,0,0,0,0,0],
          [0,0,0,0,0,0,0],[0,0,0,0,0,0,0],[1,1,1,0,0,0,0]], 1⟩

/-- Ongoing board (column 3 empty, columns 0-2 and 4-6 filled with three
player-1 tokens stacked on three player-2 tokens) whose heuristic score for
player 1 exceeds the terminal magnitude 1000. -/
def CB : Connect4 :=
  ⟨6, 7, [[1,1,1,0,1,1,1],[1,1,1,0,1,1,1],[1,1,1,0,1,1,1],
          [2,2,2,0,2,2,2],[2,2,2,0,2,2,2],[2,2,2,0,2,2,2]], 1⟩

/-- Board with player-1 tokens at (1,2), (2,1), (3,0) and (4,6) only;
no four-in-a-row exists anywhere, yet `is_winning_move(3, 0)` reads
`board[4][-1]` (wrapping to column 6) and reports a win. -/
def B5 : Connect4 :=
  ⟨6, 7, [[0,0,0,0,0,0,0],[0,0,1,0,0,0,0],[0,1,0,0,0,0,0],
          [1,0,0,0,0,0,0],[0,0,0,0,0,0,1],[0,0,0,0,0,0,0]], 1⟩

/-! ### Minimax (src/minimax.py) -/

/-- Maximizing loop body of `minimax_basic`: for each column keep the
strictly greater score (`if score > best_score`), with running best and
best column. -/
def basicMaxGo (f : Nat → EInt) : List Nat → EInt → Nat → EInt × Option Nat
  | [], b, bc => (b, some bc)
  | col :: rest, b, bc =>
      let s := f col
      if b < s then basicMaxGo f rest s col else basicMaxGo f rest b bc

/-- Minimizing loop body of `minimax_basic` (`if score < best_score`). -/
def basicMinGo (f : Nat → EInt) : List Nat → EInt → Nat → EInt × Option Nat
  | [], b, bc => (b, some bc)
  | col :: rest, b, bc =>
      let s := f col
      if s < b then basicMinGo f rest s col else basicMinGo f rest b bc

/-- Source `MinimaxPlayer.minimax_basic`. `maximizing` layers start from `-inf`
(`⊥`) and the first valid column, minimizing layers from `inf` (`⊤`). -/
def minimax_basic : Nat → Connect4 → Bool → Nat → EInt × Option Nat
  | 0, g, _, player => (toE (evaluate_position g player), none)
  | d + 1, g, maximizing, player =>
      if get_game_state g ≠ 0 then (toE (evaluate_position g player), none)
      else
        match get_valid_moves g with
        | [] => (toE (evaluate_position g player), none)
        | c0 :: rest =>
            if maximizing then
              basicMaxGo
                (fun col => (minimax_basic d (simChild g col player) false player).1)
                (c0 :: rest) ⊥ c0
            else
              basicMinGo
                (fun col => (minimax_basic d (simChild g col (3 - player)) true player).1)
                (c0 :: rest) ⊤ c0

/-- Maximizing loop body of `minimax_ab`: the child score function receives
the running `alpha`; after each strict improvement `alpha = max(alpha,
best_score)` and the loop breaks when `beta <= alpha`. -/
def abMaxGo (f : Nat → EInt → EInt) (beta : EInt) :
    List Nat → EInt → EInt → Nat → EInt × Option Nat
  | [], _, b, bc => (b, some bc)
  | col :: rest, alpha, b, bc =>
      let s := f col alpha
      let b2 := if b < s then s else b
      let bc2 := if b < s then col else bc
      let alpha2 := max alpha b2
      if beta ≤ alpha2 then (b2, some bc2) else abMaxGo f beta rest alpha2 b2 bc2

/-- Minimizing loop body of `minimax_ab` (running `beta`, cut when
`beta <= alpha`). -/
def abMinGo (f : Nat → EInt → EInt) (alpha : EInt) :
    List Nat → EInt → EInt → Nat → EInt × Option Nat
  | [], _, b, bc => (b, some bc)
  | col :: rest, beta, b, bc =>
      let s := f col beta
      let b2 := if s < b then s else b
      let bc2 := if s < b then col else bc
      let beta2 := min beta b2
      if beta2 ≤ alpha then (b2, some bc2) else abMinGo f alpha rest beta2 b2 bc2

/-- Source `MinimaxPlayer.minimax_ab`. -/
def minimax_ab : Nat → Connect4 → EInt → EInt → Bool → Nat → EInt × Option Nat
  | 0, g, _, _, _, player => (toE (evaluate_position g player), none)
  | d + 1, g, alpha, beta, maximizing, player =>
      if get_game_state g ≠ 0 then (toE (evaluate_position g player), none)
      else
        match get_valid_moves g with
        | [] => (toE (evaluate_position g player), none)
        | c0 :: rest =>
            if maximizing then
              abMaxGo
                (fun col a => (minimax_ab d (simChild g col player) a beta false player).1)
                beta (c0 :: rest) alpha ⊥ c0
            else
              abMinGo
                (fun col bb => (minimax_ab d (simChild g col (3 - player)) alpha bb true player).1)
                alpha (c0 :: rest) beta ⊤ c0

/-- Source `MinimaxPlayer.get_best_move`: root call with the full window
`(-inf, inf)`, maximizing, returning the column component. -/
def get_best_move (use_alpha_beta : Bool) (depth : Nat) (g : Connect4)
    (player : Nat) : Option Nat :=
  if use_alpha_beta then (minimax_ab depth g ⊥ ⊤ true player).2
  else (minimax_basic depth g true player).2

/-- The `(column, score)` pairs examined by a maximizing alpha-beta layer,
in order (the trace stops right after the pair whose update makes
`beta ≤ alpha`). -/
def abMaxTrace (f : Nat → EInt → EInt) (beta : EInt) :
    List Nat → EInt → EInt → List (Nat × EInt)
  | [], _, _ => []
  | col :: rest, alpha, b =>
      let s := f col alpha
      let b2 := max b s
      let alpha2 := max alpha b2
      (col, s) :: (if beta ≤ alpha2 then [] else abMaxTrace f beta rest alpha2 b2)

/-- The `(column, score)` pairs examined by a minimizing alpha-beta layer. -/
def abMinTrace (f : Nat → EInt → EInt) (alpha : EInt) :
    List Nat → EInt → EInt → List (Nat × EInt)
  | [], _, _ => []
  | col :: rest, beta, b =>
      let s := f col beta
      let b2 := min b s
      let beta2 := min beta b2
      (col, s) :: (if beta2 ≤ alpha then [] else abMinTrace f alpha rest beta2 b2)

/-- Generic "keep the strictly greater score" fold over examined pairs. -/
def pairGoMax : List (Nat × EInt) → EInt → Nat → EInt × Nat
  | [], b, bc => (b, bc)
  | (c, s) :: r, b, bc => if b < s then pairGoMax r s c else pairGoMax r b bc

/-- Generic "keep the strictly smaller score" fold over examined pairs. -/
def pairGoMin : List (Nat × EInt) → EInt → Nat → EInt × Nat
  | [], b, bc => (b, bc)
  | (c, s) :: r, b, bc => if s < b then pairGoMin r s c else pairGoMin r b bc

/-- Final best score of the max fold, as a `foldl` of `max`. -/
def foldMax (l : List (Nat × EInt)) (b : EInt) : EInt :=
  l.foldl (fun a p => max a p.2) b

/-- Final best score of the min fold, as a `foldl` of `min`. -/
def foldMin (l : List (Nat × EInt)) (b : EInt) : EInt :=
  l.foldl (fun a p => min a p.2) b

/-- Finite (integer-valued) extended score: neither `-inf` nor `inf`. -/
def finE (x : EInt) : Prop := x ≠ ⊥ ∧ x ≠ ⊤

/-- Child score function of a maximizing `minimax_basic` layer. -/
def childMaxScore (g : Connect4) (player d : Nat) (c : Nat) : EInt :=
  (minimax_basic d (simChild g c player) false player).1

/-- Child score function of a minimizing `minimax_basic` layer. -/
def childMinScore (g : Connect4) (player d : Nat) (c : Nat) : EInt :=
  (minimax_basic d (simChild g c (3 - player)) true player).1

/-- Child score function of a maximizing `minimax_ab` layer (the second
argument is the running `alpha` at the time the child is searched). -/
def childMaxScoreAB (g : Connect4) (player d : Nat) (beta : EInt)
    (c : Nat) (a : EInt) : EInt :=
  (minimax_ab d (simChild g c player) a beta false player).1

/-- Child score function of a minimizing `minimax_ab` layer (the second
argument is the running `beta`). -/
def childMinScoreAB (g : Connect4) (player d : Nat) (alpha : EInt)
    (c : Nat) (bb : EInt) : EInt :=
  (minimax_ab d (simChild g c (3 - player)) alpha bb true player).1

/-- The fresh default game, used as concrete input of several witnesses. -/
def G0 : Connect4 := initGame 6 7

/-- Fail-soft relation between an alpha-beta result `v2` and the plain
minimax result `v` for the window `(a, b)`: exact inside the window, an
upper bound on `v` at fail-low, a lower bound at fail-high. -/
def Rel (v2 v a b : EInt) : Prop :=
  (a < v2 → v2 < b → v2 = v) ∧ (v2 ≤ a → v ≤ v2) ∧ (b ≤ v2 → v2 ≤ v)

/-! ### MCTS (src/mcts.py)

The `Node` tree is embedded as an inductive type; the parent pointer of the
source is replaced by paths (lists of child indices) from the root, along
which `backpropagate` walks.  Every `random.choice(l)` is driven by an
explicit tape `tape : Nat → Nat` as `l[tape k % len l]` with a fresh index
`k` per call.  The selection descent carries fuel (passed as
`simulations + 1`, which bounds the tree height after that many
expansions). -/

/-- Source `mcts.Node`: move that led here, player who made it, owned state
snapshot, visit counter, win accumulator (`0.5` per draw, hence `ℚ`),
children in creation order, and untried moves. -/
inductive MTree : Type where
  | node (move : Option Nat) (player_who_moved : Option Nat)
      (game_state : Connect4) (visits : Nat) (wins : ℚ)
      (children : List MTree) (untried_moves : List Nat) : MTree

def MTree.move : MTree → Option Nat
  | .node mv _ _ _ _ _ _ => mv

def MTree.player_who_moved : MTree → Option Nat
  | .node _ pwm _ _ _ _ _ => pwm

def MTree.game_state : MTree → Connect4
  | .node _ _ g _ _ _ _ => g

def MTree.visits : MTree → Nat
  | .node _ _ _ v _ _ _ => v

def MTree.wins : MTree → ℚ
  | .node _ _ _ _ w _ _ => w

def MTree.children : MTree → List MTree
  | .node _ _ _ _ _ cs _ => cs

def MTree.untried_moves : MTree → List Nat
  | .node _ _ _ _ _ _ un => un

/-- Source `Node.__init__`: fresh statistics, untried moves = valid moves of the
owned snapshot. -/
def mkNode (g : Connect4) (mv : Option Nat) (pwm : Option Nat) : MTree :=
  .node mv pwm g 0 0 [] (get_valid_moves g)

/-- Source `Node.get_next_player`. -/
def get_next_player (t : MTree) : Nat :=
  match t.player_who_moved with
  | none => 1
  | some q => 3 - q

/-- Source `Node.is_fully_expanded`. -/
def is_fully_expanded (t : MTree) : Bool := t.untried_moves.isEmpty

/-- Source `Node.is_terminal`. -/
def is_terminal (t : MTree) : Bool := get_game_state t.game_state ≠ 0

/-- Source `Node.ucb1_score` with the default `C = sqrt 2`; an unvisited node
scores float infinity (`⊤`). -/
noncomputable def ucb1_score (parentVisits : Nat) (t : MTree) : EReal :=
  if t.visits = 0 then ⊤
  else (((t.wins / t.visits : ℚ) : ℝ) : EReal)
    + ((Real.sqrt 2 * Real.sqrt (Real.log parentVisits / t.visits) : ℝ) : EReal)

/-- Source `Node.select_best_child`: the index of a child attaining the greatest
UCB1 score, ties resolved by the tape (`random.choice` over the tied
children); `none` when there are no children. -/
noncomputable def select_best_child_idx (r : Nat) (t : MTree) : Option Nat :=
  match t.children with
  | [] => none
  | c :: cs =>
      let scores := (c :: cs).map (ucb1_score t.visits)
      let best := scores.foldl max ⊥
      let idxs := (List.range (c :: cs).length).filter
        (fun i => scores.getD i ⊥ = best)
      some (idxs.getD (r % idxs.length) 0)

/-- Selection phase `MCTSPlayer._select` as the path (child indices) it descends from the
given node, together with the advanced tape index. -/
noncomputable def selectPath (tape : Nat → Nat) :
    Nat → MTree → Nat → List Nat × Nat
  | 0, _, k => ([], k)
  | fuel + 1, t, k =>
      if (!is_terminal t && is_fully_expanded t) then
        match select_best_child_idx (tape k) t with
        | none => ([], k)
        | some i =>
            match t.children.get? i with
            | none => ([], k)
            | some c =>
                let pk := selectPath tape fuel c (k + 1)
                (i :: pk.1, pk.2)
      else ([], k)

/-- Node at the end of a path of child indices. -/
def nodeAt : List Nat → MTree → MTree
  | [], t => t
  | i :: p, t =>
      match t.children.get? i with
      | some c => nodeAt p c
      | none => t

/-- Replace the `i`-th element of a list by `f` of it. -/
def listModify {α : Type} : List α → Nat → (α → α) → List α
  | [], _, _ => []
  | a :: l, 0, f => f a :: l
  | a :: l, i + 1, f => a :: listModify l i f

/-- Rebuild a tree applying `f` to the node at the end of the path. -/
def modifyAt (f : MTree → MTree) : List Nat → MTree → MTree
  | [], t => f t
  | i :: p, .node mv pwm g v w cs un =>
      .node mv pwm g v w (listModify cs i (modifyAt f p)) un

/-- Source `Node.expand_node` (functional form): pop the LAST untried move
(`list.pop()`), apply it to a clone of the state, append the new child;
the updated node is returned (`none` when fully expanded). -/
def expand_node (t : MTree) : Option MTree :=
  match t.untried_moves.getLast? with
  | none => none
  | some m =>
      let player := get_next_player t
      let child := mkNode (simChild t.game_state m player) (some m) (some player)
      match t with
      | .node mv pwm g v w cs un =>
          some (.node mv pwm g v w (cs ++ [child]) un.dropLast)

/-- Rollout loop of `Node.simulate`: uniformly random legal moves
(tape-driven), alternating movers, until the game resolves.  Fuel bounds
the number of placements (`rows*cols + 1` always suffices since every step
fills a cell). -/
def rollout (tape : Nat → Nat) : Nat → Nat → Connect4 → Nat → Nat × Nat
  | 0, k, g, _ => (get_game_state g, k)
  | fuel + 1, k, g, player =>
      if get_game_state g = 0 ∧ get_valid_moves g ≠ [] then
        let valid := get_valid_moves g
        let mv := valid.getD (tape k % valid.length) 0
        rollout tape fuel (k + 1) (simChild g mv player) (3 - player)
      else (get_game_state g, k)

/-- Source `Node.simulate`: rollout from the snapshot of this node, starting with the
player to move at this node. -/
def node_simulate (tape : Nat → Nat) (k : Nat) (t : MTree) : Nat × Nat :=
  rollout tape (t.game_state.rows * t.game_state.cols + 1) k
    t.game_state (get_next_player t)

/-- One node update of `Node.backpropagate`: visits + 1; wins + 1 when the
rollout result is the player who moved here, + 0.5 on a draw. -/
def bp_update (result : Nat) : MTree → MTree
  | .node mv pwm g v w cs un =>
      .node mv pwm g (v + 1)
        (w + (if pwm = some result then 1
              else if result = 3 then (1 / 2 : ℚ) else 0)) cs un

/-- Source `Node.backpropagate`: the recursion `self.parent.backpropagate(result)`
becomes an update of every node along the path from the root to the node
the rollout started from. -/
def backprop (result : Nat) : List Nat → MTree → MTree
  | [], t => bp_update result t
  | i :: p, .node mv pwm g v w cs un =>
      bp_update result (.node mv pwm g v w (listModify cs i (backprop result p)) un)

/-- One iteration of the loop in `MCTSPlayer.get_move`: select, expand (if
the reached node is non-terminal and has untried moves), simulate from the
reached node, backpropagate. -/
noncomputable def mcts_iteration (tape : Nat → Nat) (fuel : Nat)
    (t : MTree) (k : Nat) : MTree × Nat :=
  let pk := selectPath tape fuel t k
  let nd := nodeAt pk.1 t
  let tp :=
    if is_terminal nd then (t, pk.1)
    else
      match expand_node nd with
      | some nd2 => (modifyAt (fun _ => nd2) pk.1 t, pk.1 ++ [nd.children.length])
      | none => (t, pk.1)
  let rk := node_simulate tape pk.2 (nodeAt tp.2 tp.1)
  (backprop rk.1 tp.2 tp.1, rk.2)

/-- The simulation loop of `MCTSPlayer.get_move`: `simulations` iterations
against a fresh tree. -/
noncomputable def run_simulations (tape : Nat → Nat) (simulations : Nat)
    (root : MTree) : MTree × Nat :=
  (List.range simulations).foldl
    (fun acc _ => mcts_iteration tape (simulations + 1) acc.1 acc.2) (root, 0)

/-- Python `max(children, key=visits)`: the FIRST child attaining the
greatest visit count. -/
def pick_best_child (c : MTree) (cs : List MTree) : MTree :=
  cs.foldl (fun acc x => if acc.visits < x.visits then x else acc) c

/-- Source `MCTSPlayer.get_move`: run the budget, then return the move of the root
child with the most visits; fall back to a tape-chosen valid move (or
column 0) when the root never acquired children. -/
noncomputable def mcts_get_move (tape : Nat → Nat) (simulations : Nat)
    (g : Connect4) (player : Nat) : Nat :=
  let root := mkNode g none (some (3 - player))
  let tk := run_simulations tape simulations root
  match tk.1.children with
  | [] =>
      let valid := get_valid_moves tk.1.game_state
      if valid ≠ [] then valid.getD (tape tk.2 % valid.length) 0 else 0
  | c :: cs => (pick_best_child c cs).move.getD 0

/-- Greatest visit count among a list of nodes. -/
def maxVisits (l : List MTree) : Nat :=
  l.foldl (fun a c => max a c.visits) 0

/-- The tie-break of the claim: among the root children with the greatest visit
count, the move earliest in move-generation order (the smallest column). -/
def claim_tie_pick (l : List MTree) : Option Nat :=
  ((l.filter (fun c => c.visits = maxVisits l)).map
    (fun c => c.move.getD 0)).min?

/-- The all-zero tape (used for the concrete counterexample run). -/
def tape0 : Nat → Nat := fun _ => 0

/-- Expansion applied through a path (the form every use of
`modifyAt (fun _ => expanded) path` reduces to). -/
def expandAt : List Nat → MTree → MTree :=
  modifyAt (fun u => (expand_node u).getD u)

/-- Visit counter of the node at the end of a path (`none` when the path
does not exist in the tree). -/
def visitsAt? : List Nat → MTree → Option Nat
  | [], t => some t.visits
  | i :: p, t =>
      match t.children.get? i with
      | some c => visitsAt? p c
      | none => none

/-- A path that exists in the tree. -/
def IsPath (p : List Nat) (t : MTree) : Prop := (visitsAt? p t).isSome = true

/-- Shape of the root bookkeeping after any number of iterations: the
untried moves are a prefix of the valid-move list and the moves of the children
are the remaining suffix reversed (children are created by popping the
LAST untried move). -/
def RootShape (v0 : List Nat) (t : MTree) : Prop :=
  ∃ k, k ≤ v0.length ∧ t.untried_moves = v0.take k ∧
    t.children.map MTree.move = ((v0.drop k).reverse).map some

/-- Root tree of the two-simulation run used by the C3 witness. -/
noncomputable def T3 : MTree := (run_simulations tape0 2 (mkNode G0 none (some (3 - 1)))).1

/-- Its first root child. -/
noncomputable def c3c : MTree := nodeAt [0] T3

/-- Its remaining root children. -/
noncomputable def c3cs : List MTree := T3.children.tail

/-! ### Basic list lemmas -/

theorem listSum_range_eq_finsetSum (f : Nat → ℤ) (n : Nat) :
    ((List.range n).map f).sum = ∑ i ∈ Finset.range n, f i := by
  induction n with
  | zero => simp
  | succ n ih => rw [List.range_succ, Finset.sum_range_succ]; simp [ih]

theorem list_set_zero_of_getD_zero : ∀ (l : List Nat) (i : Nat),
    l.getD i 0 = 0 → l.set i 0 = l := by
  intro l
  induction l with
  | nil => intro i _; rfl
  | cons a t ih =>
      intro i h
      cases i with
      | zero => simp only [List.getD, List.get?] at h; simp_all
      | succ j =>
          simp only [List.set]
          have := ih j (by simpa using h)
          rw [this]

theorem list_set_getD_self {α : Type} (d : α) : ∀ (L : List α) (i : Nat),
    L.set i (L.getD i d) = L ∨ L.length ≤ i := by
  intro L
  induction L with
  | nil => intro i; right; simp
  | cons a t ih =>
      intro i
      cases i with
      | zero => left; rfl
      | succ j =>
          rcases ih j with h | h
          · left; simp only [List.set, List.getD_cons_succ]
            rw [h]
          · right; simpa [Nat.succ_le_succ_iff] using h

theorem getD_set_self_of_lt {α : Type} (d : α) : ∀ (L : List α) (i : Nat) (x : α),
    i < L.length → (L.set i x).getD i d = x := by
  intro L
  induction L with
  | nil => intro i x h; simp at h
  | cons a t ih =>
      intro i x h
      cases i with
      | zero => rfl
      | succ j =>
          simp only [List.set, List.getD_cons_succ]
          exact ih j x (Nat.lt_of_succ_lt_succ h)

/-! ### C1: the sliding-window component of `evaluate_position` -/

/-- C1: the claim fails on the code: on an Ongoing board with three
player-1 tokens on the bottom row (columns 0-2), the horizontal loop of the code
(`for row in range(self.rows-3)`) never scans rows 3..5, so the whole
returned score is just the center bonus 3, whereas the specified sum over
horizontal windows in EVERY row would contribute 110 from row 5 (one 3+1
window and one 2+2 window), for a total of 113. -/
theorem c1_horizontal_rows_missing :
    get_game_state B1 = 0 ∧ evaluate_position B1 1 = 3 ∧
    horizontalScore B1 1 = 0 ∧ specHorizontalScore B1 1 = 110 ∧
    specWindowScore B1 1 + centerBonus B1 1 = 113 := by decide

/-! ### C4: terminal scores and the (failed) sub-1000 bound -/

/-- C4 counterexample: `CB` is an Ongoing state (result 0) whose heuristic
score for player 1 is not strictly below 1000 in absolute value. -/
theorem c4_counterexample :
    get_game_state CB = 0 ∧ ¬ (|evaluate_position CB 1| < 1000) := by decide

/-- C4 (amended): `evaluate_position` returns exactly +1000 / −1000 / 0 when
the scanned result is a win for the perspective player, a win for the
opponent, or a draw; but the strict sub-1000 bound on Ongoing states fails:
the Ongoing state `CB` scores 1000 or more. -/
theorem c4_terminal_scores (g : Connect4) (p : Nat) (hp : p = 1 ∨ p = 2) :
    (get_game_state g = p → evaluate_position g p = 1000) ∧
    (get_game_state g = 3 - p → evaluate_position g p = -1000) ∧
    (get_game_state g = 3 → evaluate_position g p = 0) ∧
    (get_game_state CB = 0 ∧ 1000 ≤ evaluate_position CB 1) := by
  refine ⟨?_, ?_, ?_, by decide⟩ <;>
    rcases hp with rfl | rfl <;> intro h <;> simp [evaluate_position, h]

/-- C4 witness: the amended theorem applied at the full board `CB` itself
(player 1 has not won, the opponent has not won, it is not a draw). -/
theorem c4_terminal_scores_witness :
    ((1 : Nat) = 1 ∨ (1 : Nat) = 2) ∧
    ((get_game_state B1 = 1 → evaluate_position B1 1 = 1000) ∧
     (get_game_state B1 = 3 - 1 → evaluate_position B1 1 = -1000) ∧
     (get_game_state B1 = 3 → evaluate_position B1 1 = 0) ∧
     (get_game_state CB = 0 ∧ 1000 ≤ evaluate_position CB 1)) :=
  ⟨Or.inl rfl, c4_terminal_scores B1 1 (Or.inl rfl)⟩

/-! ### C5: `is_winning_move` -/

/-- C5: the claim fails on the code: on board `B5`, cell (3,0) holds the
token of the current mover and no contiguous 4-cell window through (3,0) is all
player 1, yet `is_winning_move(3, 0)` returns `True` — its negative-diagonal
scan pairs misaligned clamped ranges and reads `board[4][-1]`, which Python
wraps to `board[4][6]`. -/
theorem c5_is_winning_move_wrap :
    cell B5 3 0 = B5.current_player ∧
    is_winning_move B5 3 0 = true ∧
    claimJustWon B5 1 3 0 = false := by decide

/-! ### C9: the center bonus -/

/-- C9: for every state whose scanned result is Ongoing and perspective
player 1 or 2, `evaluate_position` is the sliding-window sum plus exactly
the claimed center bonus `max(0, 3 − |column − cols//2|)` summed over the
cells holding the own tokens of the perspective player (and no term for any
other cell). -/
theorem c9_center_bonus (g : Connect4) (p : Nat) (hp : p = 1 ∨ p = 2)
    (h : get_game_state g = 0) :
    evaluate_position g p = windowScore g p + claimCenterBonus g p := by
  have hb : centerBonus g p = claimCenterBonus g p := by
    unfold centerBonus claimCenterBonus
    rw [listSum_range_eq_finsetSum]
    exact Finset.sum_congr rfl (fun row _ => listSum_range_eq_finsetSum _ _)
  rcases hp with rfl | rfl <;> simp [evaluate_position, h, hb]

/-- C9 witness: the bonus decomposition at the concrete board `B1` for
player 1. -/
theorem c9_center_bonus_witness :
    (((1 : Nat) = 1 ∨ (1 : Nat) = 2) ∧ get_game_state B1 = 0) ∧
    evaluate_position B1 1 = windowScore B1 1 + claimCenterBonus B1 1 :=
  ⟨⟨Or.inl rfl, by decide⟩, c9_center_bonus B1 1 (Or.inl rfl) (by decide)⟩

/-! ### C10: simulate then undo restores the state -/

/-- C10: if the lowest empty row of `col` is `row`, then `simulate_move col
player` places at `(row, col)` and `undo_move` on that pair restores the
board bit-for-bit, with `current_player` unchanged throughout. -/
theorem c10_simulate_undo (g : Connect4) (col player row : Nat)
    (h : get_next_open_row g col = some row) :
    simulate_move g col player = some ((row, col), setCell g row col player) ∧
    undo_move (setCell g row col player) (row, col) = g ∧
    (setCell g row col player).current_player = g.current_player := by
  have h0 : cell g row col = 0 := by
    have := List.find?_some h
    simpa using this
  refine ⟨by simp [simulate_move, h], ?_, rfl⟩
  unfold undo_move setCell
  rcases g with ⟨rows, cols, board, cp⟩
  simp only [Connect4.mk.injEq, and_true, true_and]
  rcases Nat.lt_or_ge row board.length with hr | hr
  · set R := board.getD row [] with hR
    have h1 : (board.set row (R.set col player)).getD row [] = R.set col player := by
      exact getD_set_self_of_lt [] board row (R.set col player) hr
    rw [h1, List.set_set, List.set_set, list_set_zero_of_getD_zero _ _ h0]
    rcases list_set_getD_self [] board row with h2 | h2
    · exact h2
    · exact absurd hr (Nat.not_lt.mpr h2)
  · rw [List.set_eq_of_length_le hr, List.set_eq_of_length_le hr]

/-- C10 witness: dropping into column 0 of the fresh 6×7 board lands at row
5 and undoing restores the empty board. -/
theorem c10_simulate_undo_witness :
    get_next_open_row (initGame 6 7) 0 = some 5 ∧
    (simulate_move (initGame 6 7) 0 1
        = some ((5, 0), setCell (initGame 6 7) 5 0 1) ∧
      undo_move (setCell (initGame 6 7) 5 0 1) (5, 0) = initGame 6 7 ∧
      (setCell (initGame 6 7) 5 0 1).current_player
        = (initGame 6 7).current_player) :=
  ⟨by decide, c10_simulate_undo (initGame 6 7) 0 1 5 (by decide)⟩

theorem ite_lt_eq_max (b s : EInt) : (if b < s then s else b) = max b s := by
  rcases le_or_lt s b with h | h
  · rw [if_neg (not_lt.mpr h), max_eq_left h]
  · rw [if_pos h, max_eq_right h.le]

theorem ite_lt_eq_min (b s : EInt) : (if s < b then s else b) = min b s := by
  rcases le_or_lt b s with h | h
  · rw [if_neg (not_lt.mpr h), min_eq_left h]
  · rw [if_pos h, min_eq_right h.le]

theorem pairGoMax_fst : ∀ (l : List (Nat × EInt)) (b : EInt) (bc : Nat),
    (pairGoMax l b bc).1 = foldMax l b := by
  intro l
  induction l with
  | nil => intro b bc; rfl
  | cons p r ih =>
      intro b bc
      obtain ⟨c, s⟩ := p
      by_cases h : b < s
      · simp only [pairGoMax, if_pos h, ih, foldMax, List.foldl_cons,
          max_eq_right h.le]
      · simp only [pairGoMax, if_neg h, ih, foldMax, List.foldl_cons,
          max_eq_left (not_lt.mp h)]

theorem le_foldMax : ∀ (l : List (Nat × EInt)) (b : EInt), b ≤ foldMax l b := by
  intro l
  induction l with
  | nil => intro b; exact le_refl b
  | cons p r ih =>
      intro b
      calc b ≤ max b p.2 := le_max_left _ _
        _ ≤ foldMax r (max b p.2) := ih _
        _ = foldMax (p :: r) b := rfl

theorem mem_le_foldMax : ∀ (l : List (Nat × EInt)) (b : EInt) (p : Nat × EInt),
    p ∈ l → p.2 ≤ foldMax l b := by
  intro l
  induction l with
  | nil => intro b p hp; simp at hp
  | cons q r ih =>
      intro b p hp
      rcases List.mem_cons.mp hp with rfl | hp
      · calc p.2 ≤ max b p.2 := le_max_right _ _
          _ ≤ foldMax r (max b p.2) := le_foldMax _ _
      · exact ih _ p hp

theorem foldMax_of_le : ∀ (l : List (Nat × EInt)) (b : EInt),
    (∀ p ∈ l, p.2 ≤ b) → foldMax l b = b := by
  intro l
  induction l with
  | nil => intro b _; rfl
  | cons q r ih =>
      intro b h
      have hq : q.2 ≤ b := h q (List.mem_cons_self q r)
      show foldMax r (max b q.2) = b
      rw [max_eq_left hq]
      exact ih b (fun p hp => h p (List.mem_cons_of_mem q hp))

theorem pairGoMax_of_le : ∀ (l : List (Nat × EInt)) (b : EInt) (bc : Nat),
    (∀ p ∈ l, p.2 ≤ b) → pairGoMax l b bc = (b, bc) := by
  intro l
  induction l with
  | nil => intro b bc _; rfl
  | cons q r ih =>
      intro b bc h
      obtain ⟨c, s⟩ := q
      have hs : s ≤ b := h (c, s) (List.mem_cons_self _ r)
      simp only [pairGoMax, if_neg (not_lt.mpr hs)]
      exact ih b bc (fun p hp => h p (List.mem_cons_of_mem _ hp))

theorem pairGoMax_snd_find : ∀ (l : List (Nat × EInt)) (b : EInt) (bc : Nat),
    b < foldMax l b →
    ∃ p, l.find? (fun q => q.2 = foldMax l b) = some p ∧
      (pairGoMax l b bc).2 = p.1 := by
  intro l
  induction l with
  | nil => intro b bc h; exact absurd h (lt_irrefl b)
  | cons q r ih =>
      intro b bc h
      obtain ⟨c, s⟩ := q
      by_cases hbs : b < s
      · have hmax : max b s = s := max_eq_right hbs.le
        have hM : foldMax ((c, s) :: r) b = foldMax r s := by
          show foldMax r (max b s) = foldMax r s
          rw [hmax]
        by_cases hsM : s < foldMax r s
        · obtain ⟨p, hfind, hcol⟩ := ih s c hsM
          refine ⟨p, ?_, ?_⟩
          · rw [hM]
            rw [List.find?_cons_of_neg, hfind]
            simp only [decide_eq_true_eq]
            exact ne_of_lt hsM
          · simpa [pairGoMax, if_pos hbs] using hcol
        · have hMs : foldMax r s = s := le_antisymm (not_lt.mp hsM) (le_foldMax r s)
          refine ⟨(c, s), ?_, ?_⟩
          · rw [hM, hMs]
            exact List.find?_cons_of_pos _ (by simp)
          · have hall : ∀ p ∈ r, p.2 ≤ s := by
              intro p hp
              have := mem_le_foldMax r s p hp
              rwa [hMs] at this
            simp only [pairGoMax, if_pos hbs]
            rw [pairGoMax_of_le r s c hall]
      · have hmax : max b s = b := max_eq_left (not_lt.mp hbs)
        have hM : foldMax ((c, s) :: r) b = foldMax r b := by
          show foldMax r (max b s) = foldMax r b
          rw [hmax]
        rw [hM] at h
        obtain ⟨p, hfind, hcol⟩ := ih b bc h
        refine ⟨p, ?_, ?_⟩
        · rw [hM]
          rw [List.find?_cons_of_neg, hfind]
          simp only [decide_eq_true_eq]
          intro hc
          have hsb : s ≤ b := not_lt.mp hbs
          rw [hc] at hsb
          exact absurd h (not_lt.mpr hsb)
        · simpa [pairGoMax, if_neg hbs] using hcol

theorem pairGoMax_snd_cases : ∀ (l : List (Nat × EInt)) (b : EInt) (bc : Nat),
    (pairGoMax l b bc).2 = bc ∨ (pairGoMax l b bc).2 ∈ l.map Prod.fst := by
  intro l
  induction l with
  | nil => intro b bc; left; rfl
  | cons q r ih =>
      intro b bc
      obtain ⟨c, s⟩ := q
      by_cases h : b < s
      · simp only [pairGoMax, if_pos h]
        rcases ih s c with h2 | h2
        · right; rw [h2]; exact List.mem_cons_self _ _
        · right; exact List.mem_cons_of_mem _ h2
      · simp only [pairGoMax, if_neg h]
        rcases ih b bc with h2 | h2
        · left; exact h2
        · right; exact List.mem_cons_of_mem _ h2

theorem pairGoMin_fst : ∀ (l : List (Nat × EInt)) (b : EInt) (bc : Nat),
    (pairGoMin l b bc).1 = foldMin l b := by
  intro l
  induction l with
  | nil => intro b bc; rfl
  | cons p r ih =>
      intro b bc
      obtain ⟨c, s⟩ := p
      by_cases h : s < b
      · simp only [pairGoMin, if_pos h, ih, foldMin, List.foldl_cons,
          min_eq_right h.le]
      · simp only [pairGoMin, if_neg h, ih, foldMin, List.foldl_cons,
          min_eq_left (not_lt.mp h)]

theorem foldMin_le : ∀ (l : List (Nat × EInt)) (b : EInt), foldMin l b ≤ b := by
  intro l
  induction l with
  | nil => intro b; exact le_refl b
  | cons p r ih =>
      intro b
      calc foldMin (p :: r) b = foldMin r (min b p.2) := rfl
        _ ≤ min b p.2 := ih _
        _ ≤ b := min_le_left _ _

theorem foldMin_le_mem : ∀ (l : List (Nat × EInt)) (b : EInt) (p : Nat × EInt),
    p ∈ l → foldMin l b ≤ p.2 := by
  intro l
  induction l with
  | nil => intro b p hp; simp at hp
  | cons q r ih =>
      intro b p hp
      rcases List.mem_cons.mp hp with rfl | hp
      · calc foldMin (p :: r) b = foldMin r (min b p.2) := rfl
          _ ≤ min b p.2 := foldMin_le _ _
          _ ≤ p.2 := min_le_right _ _
      · exact ih _ p hp

theorem foldMin_of_le : ∀ (l : List (Nat × EInt)) (b : EInt),
    (∀ p ∈ l, b ≤ p.2) → foldMin l b = b := by
  intro l
  induction l with
  | nil => intro b _; rfl
  | cons q r ih =>
      intro b h
      have hq : b ≤ q.2 := h q (List.mem_cons_self q r)
      show foldMin r (min b q.2) = b
      rw [min_eq_left hq]
      exact ih b (fun p hp => h p (List.mem_cons_of_mem q hp))

theorem pairGoMin_of_le : ∀ (l : List (Nat × EInt)) (b : EInt) (bc : Nat),
    (∀ p ∈ l, b ≤ p.2) → pairGoMin l b bc = (b, bc) := by
  intro l
  induction l with
  | nil => intro b bc _; rfl
  | cons q r ih =>
      intro b bc h
      obtain ⟨c, s⟩ := q
      have hs : b ≤ s := h (c, s) (List.mem_cons_self _ r)
      simp only [pairGoMin, if_neg (not_lt.mpr hs)]
      exact ih b bc (fun p hp => h p (List.mem_cons_of_mem _ hp))

theorem pairGoMin_snd_find : ∀ (l : List (Nat × EInt)) (b : EInt) (bc : Nat),
    foldMin l b < b →
    ∃ p, l.find? (fun q => q.2 = foldMin l b) = some p ∧
      (pairGoMin l b bc).2 = p.1 := by
  intro l
  induction l with
  | nil => intro b bc h; exact absurd h (lt_irrefl b)
  | cons q r ih =>
      intro b bc h
      obtain ⟨c, s⟩ := q
      by_cases hbs : s < b
      · have hmin : min b s = s := min_eq_right hbs.le
        have hM : foldMin ((c, s) :: r) b = foldMin r s := by
          show foldMin r (min b s) = foldMin r s
          rw [hmin]
        by_cases hsM : foldMin r s < s
        · obtain ⟨p, hfind, hcol⟩ := ih s c hsM
          refine ⟨p, ?_, ?_⟩
          · rw [hM]
            rw [List.find?_cons_of_neg, hfind]
            simp only [decide_eq_true_eq]
            exact (ne_of_lt hsM).symm
          · simpa [pairGoMin, if_pos hbs] using hcol
        · have hMs : foldMin r s = s := le_antisymm (foldMin_le r s) (not_lt.mp hsM)
          refine ⟨(c, s), ?_, ?_⟩
          · rw [hM, hMs]
            exact List.find?_cons_of_pos _ (by simp)
          · have hall : ∀ p ∈ r, s ≤ p.2 := by
              intro p hp
              have := foldMin_le_mem r s p hp
              rwa [hMs] at this
            simp only [pairGoMin, if_pos hbs]
            rw [pairGoMin_of_le r s c hall]
      · have hmin : min b s = b := min_eq_left (not_lt.mp hbs)
        have hM : foldMin ((c, s) :: r) b = foldMin r b := by
          show foldMin r (min b s) = foldMin r b
          rw [hmin]
        rw [hM] at h
        obtain ⟨p, hfind, hcol⟩ := ih b bc h
        refine ⟨p, ?_, ?_⟩
        · rw [hM]
          rw [List.find?_cons_of_neg, hfind]
          simp only [decide_eq_true_eq]
          intro hc
          have hsb : b ≤ s := not_lt.mp hbs
          rw [hc] at hsb
          exact absurd h (not_lt.mpr hsb)
        · simpa [pairGoMin, if_neg hbs] using hcol

theorem pairGoMin_snd_cases : ∀ (l : List (Nat × EInt)) (b : EInt) (bc : Nat),
    (pairGoMin l b bc).2 = bc ∨ (pairGoMin l b bc).2 ∈ l.map Prod.fst := by
  intro l
  induction l with
  | nil => intro b bc; left; rfl
  | cons q r ih =>
      intro b bc
      obtain ⟨c, s⟩ := q
      by_cases h : s < b
      · simp only [pairGoMin, if_pos h]
        rcases ih s c with h2 | h2
        · right; rw [h2]; exact List.mem_cons_self _ _
        · right; exact List.mem_cons_of_mem _ h2
      · simp only [pairGoMin, if_neg h]
        rcases ih b bc with h2 | h2
        · left; exact h2
        · right; exact List.mem_cons_of_mem _ h2

theorem basicMaxGo_eq_pair (f : Nat → EInt) : ∀ (cols : List Nat) (b : EInt) (bc : Nat),
    basicMaxGo f cols b bc =
      ((pairGoMax (cols.map (fun c => (c, f c))) b bc).1,
       some (pairGoMax (cols.map (fun c => (c, f c))) b bc).2) := by
  intro cols
  induction cols with
  | nil => intro b bc; rfl
  | cons c r ih =>
      intro b bc
      by_cases h : b < f c
      · simp only [basicMaxGo, if_pos h, List.map_cons, pairGoMax, ih]
      · simp only [basicMaxGo, if_neg h, List.map_cons, pairGoMax, ih]

theorem basicMinGo_eq_pair (f : Nat → EInt) : ∀ (cols : List Nat) (b : EInt) (bc : Nat),
    basicMinGo f cols b bc =
      ((pairGoMin (cols.map (fun c => (c, f c))) b bc).1,
       some (pairGoMin (cols.map (fun c => (c, f c))) b bc).2) := by
  intro cols
  induction cols with
  | nil => intro b bc; rfl
  | cons c r ih =>
      intro b bc
      by_cases h : f c < b
      · simp only [basicMinGo, if_pos h, List.map_cons, pairGoMin, ih]
      · simp only [basicMinGo, if_neg h, List.map_cons, pairGoMin, ih]

theorem abMaxGo_eq_pair (f : Nat → EInt → EInt) (beta : EInt) :
    ∀ (cols : List Nat) (alpha b : EInt) (bc : Nat),
    abMaxGo f beta cols alpha b bc =
      ((pairGoMax (abMaxTrace f beta cols alpha b) b bc).1,
       some (pairGoMax (abMaxTrace f beta cols alpha b) b bc).2) := by
  intro cols
  induction cols with
  | nil => intro alpha b bc; rfl
  | cons c r ih =>
      intro alpha b bc
      simp only [abMaxGo, abMaxTrace, ite_lt_eq_max]
      by_cases h : b < f c alpha
      · rw [max_eq_right h.le]
        by_cases hcut : beta ≤ max alpha (f c alpha)
        · simp only [if_pos hcut, if_pos h, pairGoMax]
        · simp only [if_neg hcut, if_pos h, pairGoMax]
          exact ih _ _ _
      · rw [max_eq_left (not_lt.mp h)]
        by_cases hcut : beta ≤ max alpha b
        · simp only [if_pos hcut, if_neg h, pairGoMax]
        · simp only [if_neg hcut, if_neg h, pairGoMax]
          exact ih _ _ _

theorem abMinGo_eq_pair (f : Nat → EInt → EInt) (alpha : EInt) :
    ∀ (cols : List Nat) (beta b : EInt) (bc : Nat),
    abMinGo f alpha cols beta b bc =
      ((pairGoMin (abMinTrace f alpha cols beta b) b bc).1,
       some (pairGoMin (abMinTrace f alpha cols beta b) b bc).2) := by
  intro cols
  induction cols with
  | nil => intro beta b bc; rfl
  | cons c r ih =>
      intro beta b bc
      simp only [abMinGo, abMinTrace, ite_lt_eq_min]
      by_cases h : f c beta < b
      · rw [min_eq_right h.le]
        by_cases hcut : min beta (f c beta) ≤ alpha
        · simp only [if_pos hcut, if_pos h, pairGoMin]
        · simp only [if_neg hcut, if_pos h, pairGoMin]
          exact ih _ _ _
      · rw [min_eq_left (not_lt.mp h)]
        by_cases hcut : min beta b ≤ alpha
        · simp only [if_pos hcut, if_neg h, pairGoMin]
        · simp only [if_neg hcut, if_neg h, pairGoMin]
          exact ih _ _ _

theorem abMaxTrace_fst_initial (f : Nat → EInt → EInt) (beta : EInt) :
    ∀ (cols : List Nat) (alpha b : EInt),
    (abMaxTrace f beta cols alpha b).map Prod.fst <+: cols := by
  intro cols
  induction cols with
  | nil => intro alpha b; simp [abMaxTrace]
  | cons c r ih =>
      intro alpha b
      show ((c, f c alpha) ::
          (if beta ≤ max alpha (max b (f c alpha)) then []
           else abMaxTrace f beta r (max alpha (max b (f c alpha))) (max b (f c alpha)))).map
          Prod.fst <+: c :: r
      by_cases hcut : beta ≤ max alpha (max b (f c alpha))
      · rw [if_pos hcut]
        simp only [List.map_cons, List.map_nil]
        exact (List.prefix_cons_inj c).mpr List.nil_prefix
      · rw [if_neg hcut]
        simp only [List.map_cons]
        exact (List.prefix_cons_inj c).mpr (ih _ _)

theorem abMinTrace_fst_initial (f : Nat → EInt → EInt) (alpha : EInt) :
    ∀ (cols : List Nat) (beta b : EInt),
    (abMinTrace f alpha cols beta b).map Prod.fst <+: cols := by
  intro cols
  induction cols with
  | nil => intro beta b; simp [abMinTrace]
  | cons c r ih =>
      intro beta b
      show ((c, f c beta) ::
          (if min beta (min b (f c beta)) ≤ alpha then []
           else abMinTrace f alpha r (min beta (min b (f c beta))) (min b (f c beta)))).map
          Prod.fst <+: c :: r
      by_cases hcut : min beta (min b (f c beta)) ≤ alpha
      · rw [if_pos hcut]
        simp only [List.map_cons, List.map_nil]
        exact (List.prefix_cons_inj c).mpr List.nil_prefix
      · rw [if_neg hcut]
        simp only [List.map_cons]
        exact (List.prefix_cons_inj c).mpr (ih _ _)

theorem get_valid_moves_sorted (g : Connect4) :
    List.Sorted (· < ·) (get_valid_moves g) :=
  (List.pairwise_lt_range g.cols).filter _

theorem toE_fin (z : ℤ) : finE (toE z) := by
  constructor
  · exact WithBot.coe_ne_bot
  · intro h
    rw [show (⊤ : EInt) = ((⊤ : WithTop ℤ) : EInt) from rfl] at h
    exact WithTop.coe_ne_top (WithBot.coe_inj.mp h)

theorem foldMax_attained : ∀ (l : List (Nat × EInt)) (b : EInt),
    foldMax l b = b ∨ ∃ p ∈ l, foldMax l b = p.2 := by
  intro l
  induction l with
  | nil => intro b; left; rfl
  | cons q r ih =>
      intro b
      rcases ih (max b q.2) with h | ⟨p, hp, h⟩
      · rcases max_choice b q.2 with h2 | h2
        · left
          show foldMax r (max b q.2) = b
          rw [h, h2]
        · right
          exact ⟨q, List.mem_cons_self _ _, by rw [show foldMax (q :: r) b = foldMax r (max b q.2) from rfl, h, h2]⟩
      · right
        exact ⟨p, List.mem_cons_of_mem _ hp, h⟩

theorem foldMin_attained : ∀ (l : List (Nat × EInt)) (b : EInt),
    foldMin l b = b ∨ ∃ p ∈ l, foldMin l b = p.2 := by
  intro l
  induction l with
  | nil => intro b; left; rfl
  | cons q r ih =>
      intro b
      rcases ih (min b q.2) with h | ⟨p, hp, h⟩
      · rcases min_choice b q.2 with h2 | h2
        · left
          show foldMin r (min b q.2) = b
          rw [h, h2]
        · right
          exact ⟨q, List.mem_cons_self _ _, by rw [show foldMin (q :: r) b = foldMin r (min b q.2) from rfl, h, h2]⟩
      · right
        exact ⟨p, List.mem_cons_of_mem _ hp, h⟩

theorem finE_foldMax (l : List (Nat × EInt)) (b : EInt) (hne : l ≠ [])
    (hl : ∀ p ∈ l, finE p.2) (hb : b ≠ ⊤) : finE (foldMax l b) := by
  constructor
  · obtain ⟨p, hp⟩ := List.exists_mem_of_ne_nil l hne
    intro hbot
    have := mem_le_foldMax l b p hp
    rw [hbot] at this
    exact (hl p hp).1 (le_bot_iff.mp this)
  · rcases foldMax_attained l b with h | ⟨p, hp, h⟩
    · rw [h]; exact hb
    · rw [h]; exact (hl p hp).2

theorem finE_foldMin (l : List (Nat × EInt)) (b : EInt) (hne : l ≠ [])
    (hl : ∀ p ∈ l, finE p.2) (hb : b ≠ ⊥) : finE (foldMin l b) := by
  constructor
  · rcases foldMin_attained l b with h | ⟨p, hp, h⟩
    · rw [h]; exact hb
    · rw [h]; exact (hl p hp).1
  · obtain ⟨p, hp⟩ := List.exists_mem_of_ne_nil l hne
    intro htop
    have := foldMin_le_mem l b p hp
    rw [htop] at this
    exact (hl p hp).2 (top_le_iff.mp this)

theorem minimax_basic_succ_max (g : Connect4) (d player c0 : Nat)
    (rest : List Nat) (hgs : get_game_state g = 0)
    (hv : get_valid_moves g = c0 :: rest) :
    minimax_basic (d + 1) g true player =
      basicMaxGo (childMaxScore g player d) (c0 :: rest) ⊥ c0 := by
  simp only [minimax_basic, minimax_ab]
  rw [if_neg (by simp [hgs]), hv]
  rfl

theorem minimax_basic_succ_min (g : Connect4) (d player c0 : Nat)
    (rest : List Nat) (hgs : get_game_state g = 0)
    (hv : get_valid_moves g = c0 :: rest) :
    minimax_basic (d + 1) g false player =
      basicMinGo (childMinScore g player d) (c0 :: rest) ⊤ c0 := by
  simp only [minimax_basic, minimax_ab]
  rw [if_neg (by simp [hgs]), hv]
  rfl

theorem minimax_ab_succ_max (g : Connect4) (d player c0 : Nat)
    (rest : List Nat) (alpha beta : EInt) (hgs : get_game_state g = 0)
    (hv : get_valid_moves g = c0 :: rest) :
    minimax_ab (d + 1) g alpha beta true player =
      abMaxGo (childMaxScoreAB g player d beta) beta (c0 :: rest) alpha ⊥ c0 := by
  simp only [minimax_basic, minimax_ab]
  rw [if_neg (by simp [hgs]), hv]
  rfl

theorem minimax_ab_succ_min (g : Connect4) (d player c0 : Nat)
    (rest : List Nat) (alpha beta : EInt) (hgs : get_game_state g = 0)
    (hv : get_valid_moves g = c0 :: rest) :
    minimax_ab (d + 1) g alpha beta false player =
      abMinGo (childMinScoreAB g player d alpha) alpha (c0 :: rest) beta ⊤ c0 := by
  simp only [minimax_basic, minimax_ab]
  rw [if_neg (by simp [hgs]), hv]
  rfl

theorem minimax_basic_fin : ∀ (d : Nat) (g : Connect4) (m : Bool) (p : Nat),
    finE (minimax_basic d g m p).1 := by
  intro d
  induction d with
  | zero => intro g m p; exact toE_fin _
  | succ d ih =>
      intro g m p
      by_cases hgs : get_game_state g = 0
      · cases hv : get_valid_moves g with
        | nil =>
            simp only [minimax_basic]
            rw [if_neg (by simp [hgs]), hv]
            exact toE_fin _
        | cons c0 rest =>
            cases m with
            | true =>
                rw [minimax_basic_succ_max g d p c0 rest hgs hv,
                  basicMaxGo_eq_pair, pairGoMax_fst]
                refine finE_foldMax _ _ (by simp) ?_ (by simp)
                intro q hq
                obtain ⟨c, _, rfl⟩ := List.mem_map.mp hq
                exact ih _ _ _
            | false =>
                rw [minimax_basic_succ_min g d p c0 rest hgs hv,
                  basicMinGo_eq_pair, pairGoMin_fst]
                refine finE_foldMin _ _ (by simp) ?_ (by simp)
                intro q hq
                obtain ⟨c, _, rfl⟩ := List.mem_map.mp hq
                exact ih _ _ _
      · simp only [minimax_basic]
        rw [if_pos hgs]
        exact toE_fin _

theorem abMaxTrace_snd_fin (f : Nat → EInt → EInt) (beta : EInt)
    (hf : ∀ c a, finE (f c a)) :
    ∀ (cols : List Nat) (alpha b : EInt),
    ∀ q ∈ abMaxTrace f beta cols alpha b, finE q.2 := by
  intro cols
  induction cols with
  | nil => intro alpha b q hq; simp [abMaxTrace] at hq
  | cons c r ih =>
      intro alpha b q hq
      rw [show abMaxTrace f beta (c :: r) alpha b = (c, f c alpha) ::
          (if beta ≤ max alpha (max b (f c alpha)) then []
           else abMaxTrace f beta r (max alpha (max b (f c alpha)))
             (max b (f c alpha))) from rfl] at hq
      rcases List.mem_cons.mp hq with rfl | hq
      · exact hf _ _
      · by_cases hcut : beta ≤ max alpha (max b (f c alpha))
        · rw [if_pos hcut] at hq; simp at hq
        · rw [if_neg hcut] at hq; exact ih _ _ q hq

theorem abMinTrace_snd_fin (f : Nat → EInt → EInt) (alpha : EInt)
    (hf : ∀ c a, finE (f c a)) :
    ∀ (cols : List Nat) (beta b : EInt),
    ∀ q ∈ abMinTrace f alpha cols beta b, finE q.2 := by
  intro cols
  induction cols with
  | nil => intro beta b q hq; simp [abMinTrace] at hq
  | cons c r ih =>
      intro beta b q hq
      rw [show abMinTrace f alpha (c :: r) beta b = (c, f c beta) ::
          (if min beta (min b (f c beta)) ≤ alpha then []
           else abMinTrace f alpha r (min beta (min b (f c beta)))
             (min b (f c beta))) from rfl] at hq
      rcases List.mem_cons.mp hq with rfl | hq
      · exact hf _ _
      · by_cases hcut : min beta (min b (f c beta)) ≤ alpha
        · rw [if_pos hcut] at hq; simp at hq
        · rw [if_neg hcut] at hq; exact ih _ _ q hq

theorem minimax_ab_fin : ∀ (d : Nat) (g : Connect4) (alpha beta : EInt)
    (m : Bool) (p : Nat), finE (minimax_ab d g alpha beta m p).1 := by
  intro d
  induction d with
  | zero => intro g alpha beta m p; exact toE_fin _
  | succ d ih =>
      intro g alpha beta m p
      by_cases hgs : get_game_state g = 0
      · cases hv : get_valid_moves g with
        | nil =>
            simp only [minimax_ab]
            rw [if_neg (by simp [hgs]), hv]
            exact toE_fin _
        | cons c0 rest =>
            cases m with
            | true =>
                rw [minimax_ab_succ_max g d p c0 rest alpha beta hgs hv,
                  abMaxGo_eq_pair, pairGoMax_fst]
                refine finE_foldMax _ _ ?_ ?_ (by simp)
                · show (c0, childMaxScoreAB g p d beta c0 alpha) :: _ ≠ []
                  simp
                · exact abMaxTrace_snd_fin _ _ (fun c a => ih _ _ _ _ _) _ _ _
            | false =>
                rw [minimax_ab_succ_min g d p c0 rest alpha beta hgs hv,
                  abMinGo_eq_pair, pairGoMin_fst]
                refine finE_foldMin _ _ ?_ ?_ (by simp)
                · show (c0, childMinScoreAB g p d alpha c0 beta) :: _ ≠ []
                  simp
                · exact abMinTrace_snd_fin _ _ (fun c a => ih _ _ _ _ _) _ _ _
      · simp only [minimax_ab]
        rw [if_pos hgs]
        exact toE_fin _

theorem find?_pair_map (f : Nat → EInt) (M : EInt) : ∀ (cols : List Nat),
    (((cols.map (fun c => (c, f c))).find? (fun q => q.2 = M)).map Prod.fst)
      = cols.find? (fun c => f c = M) := by
  intro cols
  induction cols with
  | nil => rfl
  | cons c r ih =>
      by_cases h : f c = M
      · rw [List.map_cons, List.find?_cons_of_pos _ (by simp [h]),
          List.find?_cons_of_pos _ (by simp [h])]
        rfl
      · rw [List.map_cons, List.find?_cons_of_neg _ (by simp [h]),
          List.find?_cons_of_neg _ (by simp [h])]
        exact ih

/-- C7: in a maximizing layer (of either variant) columns are examined in
ascending order and the returned column is the first examined column whose
child score attains the final maximum — a later equal score never replaces
it; mirror statement for the minimizing layers with the least score.  For
the alpha-beta variant the examined columns form a prefix of the valid
moves (the cut only drops a suffix), and the returned pair is the maximum
(resp. minimum) over the examined trace together with the first trace
entry attaining it. -/
theorem c7_first_best_kept (g : Connect4) (d player c0 : Nat)
    (rest : List Nat) (alpha beta : EInt)
    (hgs : get_game_state g = 0) (hv : get_valid_moves g = c0 :: rest) :
    List.Sorted (· < ·) (get_valid_moves g) ∧
    (∃ cw, (c0 :: rest).find? (fun c => childMaxScore g player d c =
        foldMax ((c0 :: rest).map (fun c => (c, childMaxScore g player d c))) ⊥)
          = some cw ∧
      minimax_basic (d + 1) g true player =
        (foldMax ((c0 :: rest).map (fun c => (c, childMaxScore g player d c))) ⊥,
         some cw)) ∧
    (∃ cw, (c0 :: rest).find? (fun c => childMinScore g player d c =
        foldMin ((c0 :: rest).map (fun c => (c, childMinScore g player d c))) ⊤)
          = some cw ∧
      minimax_basic (d + 1) g false player =
        (foldMin ((c0 :: rest).map (fun c => (c, childMinScore g player d c))) ⊤,
         some cw)) ∧
    ((abMaxTrace (childMaxScoreAB g player d beta) beta (c0 :: rest) alpha ⊥).map
        Prod.fst <+: (c0 :: rest) ∧
     ∃ q, (abMaxTrace (childMaxScoreAB g player d beta) beta (c0 :: rest) alpha ⊥).find?
          (fun q => q.2 = foldMax
            (abMaxTrace (childMaxScoreAB g player d beta) beta (c0 :: rest) alpha ⊥) ⊥)
          = some q ∧
      minimax_ab (d + 1) g alpha beta true player =
        (foldMax (abMaxTrace (childMaxScoreAB g player d beta) beta (c0 :: rest) alpha ⊥) ⊥,
         some q.1)) ∧
    ((abMinTrace (childMinScoreAB g player d alpha) alpha (c0 :: rest) beta ⊤).map
        Prod.fst <+: (c0 :: rest) ∧
     ∃ q, (abMinTrace (childMinScoreAB g player d alpha) alpha (c0 :: rest) beta ⊤).find?
          (fun q => q.2 = foldMin
            (abMinTrace (childMinScoreAB g player d alpha) alpha (c0 :: rest) beta ⊤) ⊤)
          = some q ∧
      minimax_ab (d + 1) g alpha beta false player =
        (foldMin (abMinTrace (childMinScoreAB g player d alpha) alpha (c0 :: rest) beta ⊤) ⊤,
         some q.1)) := by
  refine ⟨get_valid_moves_sorted g, ?_, ?_, ?_, ?_⟩
  · -- basic, maximizing
    have hfin : ∀ q ∈ (c0 :: rest).map (fun c => (c, childMaxScore g player d c)),
        finE q.2 := by
      intro q hq
      obtain ⟨c, _, rfl⟩ := List.mem_map.mp hq
      exact minimax_basic_fin _ _ _ _
    have hfm := finE_foldMax _ ⊥ (by simp) hfin (by simp)
    have hlt : ⊥ < foldMax ((c0 :: rest).map (fun c => (c, childMaxScore g player d c))) ⊥ :=
      bot_lt_iff_ne_bot.mpr hfm.1
    obtain ⟨q, hfind, hcol⟩ := pairGoMax_snd_find _ ⊥ c0 hlt
    refine ⟨q.1, ?_, ?_⟩
    · rw [← find?_pair_map (childMaxScore g player d) _ (c0 :: rest), hfind]
      rfl
    · rw [minimax_basic_succ_max g d player c0 rest hgs hv,
        basicMaxGo_eq_pair, pairGoMax_fst, hcol]
  · -- basic, minimizing
    have hfin : ∀ q ∈ (c0 :: rest).map (fun c => (c, childMinScore g player d c)),
        finE q.2 := by
      intro q hq
      obtain ⟨c, _, rfl⟩ := List.mem_map.mp hq
      exact minimax_basic_fin _ _ _ _
    have hfm := finE_foldMin _ ⊤ (by simp) hfin (by simp)
    have hlt : foldMin ((c0 :: rest).map (fun c => (c, childMinScore g player d c))) ⊤ < ⊤ :=
      lt_top_iff_ne_top.mpr hfm.2
    obtain ⟨q, hfind, hcol⟩ := pairGoMin_snd_find _ ⊤ c0 hlt
    refine ⟨q.1, ?_, ?_⟩
    · rw [← find?_pair_map (childMinScore g player d) _ (c0 :: rest), hfind]
      rfl
    · rw [minimax_basic_succ_min g d player c0 rest hgs hv,
        basicMinGo_eq_pair, pairGoMin_fst, hcol]
  · -- alpha-beta, maximizing
    refine ⟨abMaxTrace_fst_initial _ _ _ _ _, ?_⟩
    have hfin := abMaxTrace_snd_fin (childMaxScoreAB g player d beta) beta
      (fun c a => minimax_ab_fin _ _ _ _ _ _) (c0 :: rest) alpha ⊥
    have hne : abMaxTrace (childMaxScoreAB g player d beta) beta (c0 :: rest) alpha ⊥ ≠ [] :=
      List.cons_ne_nil _ _
    have hfm := finE_foldMax _ ⊥ hne hfin (by simp)
    have hlt := bot_lt_iff_ne_bot.mpr hfm.1
    obtain ⟨q, hfind, hcol⟩ := pairGoMax_snd_find _ ⊥ c0 hlt
    refine ⟨q, hfind, ?_⟩
    rw [minimax_ab_succ_max g d player c0 rest alpha beta hgs hv,
      abMaxGo_eq_pair, pairGoMax_fst, hcol]
  · -- alpha-beta, minimizing
    refine ⟨abMinTrace_fst_initial _ _ _ _ _, ?_⟩
    have hfin := abMinTrace_snd_fin (childMinScoreAB g player d alpha) alpha
      (fun c a => minimax_ab_fin _ _ _ _ _ _) (c0 :: rest) beta ⊤
    have hne : abMinTrace (childMinScoreAB g player d alpha) alpha (c0 :: rest) beta ⊤ ≠ [] :=
      List.cons_ne_nil _ _
    have hfm := finE_foldMin _ ⊤ hne hfin (by simp)
    have hlt := lt_top_iff_ne_top.mpr hfm.2
    obtain ⟨q, hfind, hcol⟩ := pairGoMin_snd_find _ ⊤ c0 hlt
    refine ⟨q, hfind, ?_⟩
    rw [minimax_ab_succ_min g d player c0 rest alpha beta hgs hv,
      abMinGo_eq_pair, pairGoMin_fst, hcol]

/-- C7 witness: the characterization at the fresh 6×7 board, depth 1,
player 1, root window `(-inf, inf)`. -/
theorem c7_first_best_kept_witness :
    (get_game_state G0 = 0 ∧ get_valid_moves G0 = 0 :: [1, 2, 3, 4, 5, 6]) ∧
    (List.Sorted (· < ·) (get_valid_moves G0) ∧
    (∃ cw, (0 :: [1, 2, 3, 4, 5, 6]).find? (fun c => childMaxScore G0 1 0 c =
        foldMax ((0 :: [1, 2, 3, 4, 5, 6]).map (fun c => (c, childMaxScore G0 1 0 c))) ⊥)
          = some cw ∧
      minimax_basic (0 + 1) G0 true 1 =
        (foldMax ((0 :: [1, 2, 3, 4, 5, 6]).map (fun c => (c, childMaxScore G0 1 0 c))) ⊥,
         some cw)) ∧
    (∃ cw, (0 :: [1, 2, 3, 4, 5, 6]).find? (fun c => childMinScore G0 1 0 c =
        foldMin ((0 :: [1, 2, 3, 4, 5, 6]).map (fun c => (c, childMinScore G0 1 0 c))) ⊤)
          = some cw ∧
      minimax_basic (0 + 1) G0 false 1 =
        (foldMin ((0 :: [1, 2, 3, 4, 5, 6]).map (fun c => (c, childMinScore G0 1 0 c))) ⊤,
         some cw)) ∧
    ((abMaxTrace (childMaxScoreAB G0 1 0 ⊤) ⊤ (0 :: [1, 2, 3, 4, 5, 6]) ⊥ ⊥).map
        Prod.fst <+: (0 :: [1, 2, 3, 4, 5, 6]) ∧
     ∃ q, (abMaxTrace (childMaxScoreAB G0 1 0 ⊤) ⊤ (0 :: [1, 2, 3, 4, 5, 6]) ⊥ ⊥).find?
          (fun q => q.2 = foldMax
            (abMaxTrace (childMaxScoreAB G0 1 0 ⊤) ⊤ (0 :: [1, 2, 3, 4, 5, 6]) ⊥ ⊥) ⊥)
          = some q ∧
      minimax_ab (0 + 1) G0 ⊥ ⊤ true 1 =
        (foldMax (abMaxTrace (childMaxScoreAB G0 1 0 ⊤) ⊤ (0 :: [1, 2, 3, 4, 5, 6]) ⊥ ⊥) ⊥,
         some q.1)) ∧
    ((abMinTrace (childMinScoreAB G0 1 0 ⊥) ⊥ (0 :: [1, 2, 3, 4, 5, 6]) ⊤ ⊤).map
        Prod.fst <+: (0 :: [1, 2, 3, 4, 5, 6]) ∧
     ∃ q, (abMinTrace (childMinScoreAB G0 1 0 ⊥) ⊥ (0 :: [1, 2, 3, 4, 5, 6]) ⊤ ⊤).find?
          (fun q => q.2 = foldMin
            (abMinTrace (childMinScoreAB G0 1 0 ⊥) ⊥ (0 :: [1, 2, 3, 4, 5, 6]) ⊤ ⊤) ⊤)
          = some q ∧
      minimax_ab (0 + 1) G0 ⊥ ⊤ false 1 =
        (foldMin (abMinTrace (childMinScoreAB G0 1 0 ⊥) ⊥ (0 :: [1, 2, 3, 4, 5, 6]) ⊤ ⊤) ⊤,
         some q.1))) :=
  ⟨⟨by decide, by decide⟩,
   c7_first_best_kept G0 0 1 0 [1, 2, 3, 4, 5, 6] ⊥ ⊤ (by decide) (by decide)⟩

theorem Rel_refl (v a b : EInt) : Rel v v a b :=
  ⟨fun _ _ => rfl, fun _ => le_refl v, fun _ => le_refl v⟩

theorem failsoft_maxGo (fA : Nat → EInt → EInt) (fB : Nat → EInt)
    (alpha0 beta : EInt)
    (hf : ∀ c a, a < beta → Rel (fA c a) (fB c) a beta) :
    ∀ (cols : List Nat) (a bA bB : EInt) (bcA bcB : Nat),
    a = max alpha0 bA → bB ≤ bA → max alpha0 bA = max alpha0 bB →
    max alpha0 bA < beta →
    Rel (abMaxGo fA beta cols a bA bcA).1 (basicMaxGo fB cols bB bcB).1
      alpha0 beta := by
  intro cols
  induction cols with
  | nil =>
      intro a bA bB bcA bcB ha hBB hE hlt
      subst ha
      refine ⟨?_, ?_, ?_⟩
      · intro h1 h2
        show bA = bB
        have hbA : max alpha0 bA = bA := max_eq_right (le_of_lt h1)
        rcases le_or_lt bB alpha0 with hb | hb
        · exfalso
          rw [hbA, max_eq_left hb] at hE
          exact absurd hE (ne_of_gt h1)
        · rw [hbA, max_eq_right hb.le] at hE
          exact hE
      · intro _; exact hBB
      · intro h
        exact absurd (lt_of_le_of_lt (le_max_right alpha0 bA) hlt)
          (not_lt.mpr h)
  | cons c r ih =>
      intro a bA bB bcA bcB ha hBB hE hlt
      subst ha
      have hRel := hf c (max alpha0 bA) hlt
      simp only [abMaxGo, ite_lt_eq_max]
      have hA2 : max (max alpha0 bA) (max bA (fA c (max alpha0 bA)))
          = max alpha0 (max bA (fA c (max alpha0 bA))) := by
        rw [max_assoc alpha0 bA (max bA (fA c (max alpha0 bA))),
          ← max_assoc bA bA _, max_self]
      by_cases hcut : beta ≤ max (max alpha0 bA)
          (max bA (fA c (max alpha0 bA)))
      · rw [if_pos hcut]
        have hbA_lt : bA < beta := lt_of_le_of_lt (le_max_right alpha0 bA) hlt
        have hbs : beta ≤ fA c (max alpha0 bA) := by
          rcases le_or_lt beta (fA c (max alpha0 bA)) with h | h
          · exact h
          · exact absurd hcut (not_le.mpr (max_lt hlt (max_lt hbA_lt h)))
        have hb2 : max bA (fA c (max alpha0 bA)) = fA c (max alpha0 bA) :=
          max_eq_right (le_trans hbA_lt.le hbs)
        rw [hb2]
        refine ⟨?_, ?_, ?_⟩
        · intro _ h2
          exact absurd h2 (not_lt.mpr hbs)
        · intro h1
          exact absurd h1 (not_le.mpr
            (lt_of_lt_of_le (lt_of_le_of_lt (le_max_left alpha0 bA) hlt) hbs))
        · intro _
          have h3 : fA c (max alpha0 bA) ≤ fB c := hRel.2.2 hbs
          have h4 : fB c ≤ (basicMaxGo fB (c :: r) bB bcB).1 := by
            rw [basicMaxGo_eq_pair, pairGoMax_fst]
            exact mem_le_foldMax _ bB (c, fB c)
              (List.mem_map_of_mem _ (List.mem_cons_self c r))
        
          exact le_trans h3 h4
      · rw [if_neg hcut, hA2]
        have hlt2 : max alpha0 (max bA (fA c (max alpha0 bA))) < beta := by
          rw [← hA2]; exact not_le.mp hcut
        have hassoc : max alpha0 (max bA (fA c (max alpha0 bA)))
            = max (max alpha0 bA) (fA c (max alpha0 bA)) :=
          (max_assoc alpha0 bA (fA c (max alpha0 bA))).symm
        by_cases hbs2 : max alpha0 bA < fA c (max alpha0 bA)
        · have hs2lt : fA c (max alpha0 bA) < beta :=
            lt_of_le_of_lt
              (le_trans (le_max_right bA _) (le_max_right alpha0 _)) hlt2
          have heq : fA c (max alpha0 bA) = fB c := hRel.1 hbs2 hs2lt
          have hbBlt : bB < fB c := by
            rw [← heq]
            exact lt_of_le_of_lt
              (le_trans hBB (le_max_right alpha0 bA)) hbs2
          have hb1 : max bA (fA c (max alpha0 bA)) = fA c (max alpha0 bA) :=
            max_eq_right
              (le_of_lt (lt_of_le_of_lt (le_max_right alpha0 bA) hbs2))
          simp only [basicMaxGo]
          rw [if_pos hbBlt]
          refine ih _ _ _ _ _ rfl ?_ ?_ hlt2
          · rw [← heq]
            exact le_max_right bA _
          · rw [hb1, ← heq]
        · have hs2le : fA c (max alpha0 bA) ≤ max alpha0 bA := not_lt.mp hbs2
          have hsle : fB c ≤ fA c (max alpha0 bA) := hRel.2.1 hs2le
          have hval : max alpha0 (max bA (fA c (max alpha0 bA)))
              = max alpha0 bA := by
            rw [hassoc]
            exact max_eq_left hs2le
          simp only [basicMaxGo]
          by_cases hbs3 : bB < fB c
          · rw [if_pos hbs3]
            refine ih _ _ _ _ _ rfl ?_ ?_ ?_
            · exact le_trans hsle (le_max_right bA _)
            · rw [hval]
              refine le_antisymm ?_ ?_
              · rw [hE]
                exact max_le_max (le_refl alpha0) hbs3.le
              · exact max_le (le_max_left _ _)
                  (le_trans hsle (le_trans hs2le (le_refl _)))
            · rw [hval]; exact hlt
          · rw [if_neg hbs3]
            refine ih _ _ _ _ _ rfl ?_ ?_ ?_
            · exact le_trans hBB (le_max_left bA _)
            · rw [hval]; exact hE
            · rw [hval]; exact hlt

theorem failsoft_minGo (fA : Nat → EInt → EInt) (fB : Nat → EInt)
    (alpha0 beta0 : EInt)
    (hf : ∀ c bb, alpha0 < bb → Rel (fA c bb) (fB c) alpha0 bb) :
    ∀ (cols : List Nat) (bb bA bB : EInt) (bcA bcB : Nat),
    bb = min beta0 bA → bA ≤ bB → min beta0 bA = min beta0 bB →
    alpha0 < min beta0 bA →
    Rel (abMinGo fA alpha0 cols bb bA bcA).1 (basicMinGo fB cols bB bcB).1
      alpha0 beta0 := by
  intro cols
  induction cols with
  | nil =>
      intro bb bA bB bcA bcB hb hBB hE hgt
      subst hb
      refine ⟨?_, ?_, ?_⟩
      · intro _ h2
        show bA = bB
        have hbA : min beta0 bA = bA := min_eq_right (le_of_lt h2)
        rcases le_or_lt beta0 bB with hb2 | hb2
        · exfalso
          rw [hbA, min_eq_left hb2] at hE
          exact absurd hE (ne_of_lt h2)
        · rw [hbA, min_eq_right hb2.le] at hE
          exact hE
      · intro h
        exact absurd (lt_of_lt_of_le hgt (min_le_right beta0 bA))
          (not_lt.mpr h)
      · intro _; exact hBB
  | cons c r ih =>
      intro bb bA bB bcA bcB hb hBB hE hgt
      subst hb
      have hRel := hf c (min beta0 bA) hgt
      simp only [abMinGo, ite_lt_eq_min]
      have hA2 : min (min beta0 bA) (min bA (fA c (min beta0 bA)))
          = min beta0 (min bA (fA c (min beta0 bA)))  := by
        rw [min_assoc beta0 bA (min bA (fA c (min beta0 bA))),
          ← min_assoc bA bA _, min_self]
      by_cases hcut : min (min beta0 bA)
          (min bA (fA c (min beta0 bA))) ≤ alpha0
      · rw [if_pos hcut]
        have hbA_gt : alpha0 < bA := lt_of_lt_of_le hgt (min_le_right beta0 bA)
        have hbs : fA c (min beta0 bA) ≤ alpha0 := by
          rcases le_or_lt (fA c (min beta0 bA)) alpha0 with h | h
          · exact h
          · exact absurd hcut (not_le.mpr (lt_min hgt (lt_min hbA_gt h)))
        have hb2 : min bA (fA c (min beta0 bA)) = fA c (min beta0 bA) :=
          min_eq_right (le_trans hbs hbA_gt.le)
        rw [hb2]
        refine ⟨?_, ?_, ?_⟩
        · intro h1 _
          exact absurd h1 (not_lt.mpr hbs)
        · intro _
          have h3 : fB c ≤ fA c (min beta0 bA) := hRel.2.1 hbs
          have h4 : (basicMinGo fB (c :: r) bB bcB).1 ≤ fB c := by
            rw [basicMinGo_eq_pair, pairGoMin_fst]
            exact foldMin_le_mem _ bB (c, fB c)
              (List.mem_map_of_mem _ (List.mem_cons_self c r))
          exact le_trans h4 h3
        · intro h1
          exact absurd h1 (not_le.mpr
            (lt_of_le_of_lt hbs (lt_of_lt_of_le hgt (min_le_left beta0 bA))))
      · rw [if_neg hcut, hA2]
        have hgt2 : alpha0 < min beta0 (min bA (fA c (min beta0 bA))) := by
          rw [← hA2]; exact not_le.mp hcut
        have hassoc : min beta0 (min bA (fA c (min beta0 bA)))
            = min (min beta0 bA) (fA c (min beta0 bA)) :=
          (min_assoc beta0 bA (fA c (min beta0 bA))).symm
        by_cases hbs2 : fA c (min beta0 bA) < min beta0 bA
        · have hs2gt : alpha0 < fA c (min beta0 bA) :=
            lt_of_lt_of_le hgt2
              (le_trans (min_le_right beta0 _) (min_le_right bA _))
          have heq : fA c (min beta0 bA) = fB c := hRel.1 hs2gt hbs2
          have hbBgt : fB c < bB := by
            rw [← heq]
            exact lt_of_lt_of_le hbs2
              (le_trans (min_le_right beta0 bA) hBB)
          have hb1 : min bA (fA c (min beta0 bA)) = fA c (min beta0 bA) :=
            min_eq_right
              (le_of_lt (lt_of_lt_of_le hbs2 (min_le_right beta0 bA)))
          simp only [basicMinGo]
          rw [if_pos hbBgt]
          refine ih _ _ _ _ _ rfl ?_ ?_ hgt2
          · rw [← heq]
            exact min_le_right bA _
          · rw [hb1, ← heq]
        · have hs2ge : min beta0 bA ≤ fA c (min beta0 bA) := not_lt.mp hbs2
          have hsge : fA c (min beta0 bA) ≤ fB c := hRel.2.2 hs2ge
          have hval : min beta0 (min bA (fA c (min beta0 bA)))
              = min beta0 bA := by
            rw [hassoc]
            exact min_eq_left hs2ge
          simp only [basicMinGo]
          by_cases hbs3 : fB c < bB
          · rw [if_pos hbs3]
            refine ih _ _ _ _ _ rfl ?_ ?_ ?_
            · exact le_trans (min_le_right bA _) hsge
            · rw [hval]
              refine le_antisymm ?_ ?_
              · exact le_min (min_le_left _ _) (le_trans hs2ge hsge)
              · rw [hE]
                exact min_le_min (le_refl beta0) hbs3.le
            · rw [hval]; exact hgt
          · rw [if_neg hbs3]
            refine ih _ _ _ _ _ rfl ?_ ?_ ?_
            · exact le_trans (min_le_left bA _) hBB
            · rw [hval]; exact hE
            · rw [hval]; exact hgt

theorem failsoft : ∀ (d : Nat) (g : Connect4) (alpha beta : EInt)
    (m : Bool) (p : Nat), alpha < beta →
    Rel (minimax_ab d g alpha beta m p).1 (minimax_basic d g m p).1
      alpha beta := by
  intro d
  induction d with
  | zero => intro g alpha beta m p _; exact Rel_refl _ _ _
  | succ d ih =>
      intro g alpha beta m p hab
      by_cases hgs : get_game_state g = 0
      · cases hv : get_valid_moves g with
        | nil =>
            have h1 : minimax_ab (d + 1) g alpha beta m p
                = (toE (evaluate_position g p), none) := by
              simp only [minimax_ab]
              rw [if_neg (by simp [hgs]), hv]
            have h2 : minimax_basic (d + 1) g m p
                = (toE (evaluate_position g p), none) := by
              simp only [minimax_basic]
              rw [if_neg (by simp [hgs]), hv]
            rw [h1, h2]
            exact Rel_refl _ _ _
        | cons c0 rest =>
            cases m with
            | true =>
                rw [minimax_ab_succ_max g d p c0 rest alpha beta hgs hv,
                  minimax_basic_succ_max g d p c0 rest hgs hv]
                refine failsoft_maxGo _ _ alpha beta
                  (fun c a ha => ih (simChild g c p) a beta false p ha)
                  (c0 :: rest) alpha ⊥ ⊥ c0 c0
                  (max_eq_left bot_le).symm le_rfl rfl ?_
                rw [max_eq_left bot_le]
                exact hab
            | false =>
                rw [minimax_ab_succ_min g d p c0 rest alpha beta hgs hv,
                  minimax_basic_succ_min g d p c0 rest hgs hv]
                refine failsoft_minGo _ _ alpha beta
                  (fun c bb hbb => ih (simChild g c (3 - p)) alpha bb true p hbb)
                  (c0 :: rest) beta ⊤ ⊤ c0 c0
                  (min_eq_left le_top).symm le_rfl rfl ?_
                rw [min_eq_left le_top]
                exact hab
      · have h1 : minimax_ab (d + 1) g alpha beta m p
            = (toE (evaluate_position g p), none) := by
          simp only [minimax_ab]
          rw [if_pos hgs]
        have h2 : minimax_basic (d + 1) g m p
            = (toE (evaluate_position g p), none) := by
          simp only [minimax_basic]
          rw [if_pos hgs]
        rw [h1, h2]
        exact Rel_refl _ _ _

theorem root_go_eq (fA : Nat → EInt → EInt) (fB : Nat → EInt)
    (hf : ∀ c a, a < ⊤ → Rel (fA c a) (fB c) a ⊤)
    (hfin : ∀ c a, fA c a ≠ ⊤) :
    ∀ (cols : List Nat) (b : EInt) (bc : Nat), b ≠ ⊤ →
    abMaxGo fA ⊤ cols b b bc = basicMaxGo fB cols b bc := by
  intro cols
  induction cols with
  | nil => intro b bc _; rfl
  | cons c r ih =>
      intro b bc hb
      have hb_lt : b < ⊤ := lt_top_iff_ne_top.mpr hb
      have hRel := hf c b hb_lt
      simp only [abMaxGo, basicMaxGo, ite_lt_eq_max]
      by_cases h : b < fA c b
      · have hs_lt : fA c b < ⊤ := lt_top_iff_ne_top.mpr (hfin c b)
        have heq : fA c b = fB c := hRel.1 h hs_lt
        have hmax2 : max b (max b (fA c b)) = fA c b := by
          rw [← max_assoc, max_self]
          exact max_eq_right h.le
        have hmax : max b (fA c b) = fA c b := max_eq_right h.le
        rw [hmax2, hmax, if_neg (not_le.mpr hs_lt), if_pos h, ← heq,
          if_pos h]
        exact ih (fA c b) c (hfin c b)
      · have hsle : fA c b ≤ b := not_lt.mp h
        have hle : fB c ≤ fA c b := hRel.2.1 hsle
        have hnlt : ¬ b < fB c := not_lt.mpr (le_trans hle hsle)
        have hmax2 : max b (max b (fA c b)) = b := by
          rw [← max_assoc, max_self]
          exact max_eq_left hsle
        have hmax : max b (fA c b) = b := max_eq_left hsle
        rw [hmax2, hmax, if_neg (not_le.mpr hb_lt), if_neg h, if_neg hnlt]
        exact ih b bc hb

/-- C8: at the root window `(-inf, inf)` the alpha-beta search returns
exactly the same score and the same best column as plain minimax, for every
state, depth and player; hence `get_best_move` is independent of the
`use_alpha_beta` flag. -/
theorem c8_ab_equals_basic (depth : Nat) (g : Connect4) (player : Nat) :
    minimax_ab depth g ⊥ ⊤ true player = minimax_basic depth g true player ∧
    get_best_move true depth g player = get_best_move false depth g player := by
  have hmain : minimax_ab depth g ⊥ ⊤ true player
      = minimax_basic depth g true player := by
    cases depth with
    | zero => rfl
    | succ d =>
        by_cases hgs : get_game_state g = 0
        · cases hv : get_valid_moves g with
          | nil =>
              have h1 : minimax_ab (d + 1) g ⊥ ⊤ true player
                  = (toE (evaluate_position g player), none) := by
                simp only [minimax_ab]
                rw [if_neg (by simp [hgs]), hv]
              have h2 : minimax_basic (d + 1) g true player
                  = (toE (evaluate_position g player), none) := by
                simp only [minimax_basic]
                rw [if_neg (by simp [hgs]), hv]
              rw [h1, h2]
          | cons c0 rest =>
              rw [minimax_ab_succ_max g d player c0 rest ⊥ ⊤ hgs hv,
                minimax_basic_succ_max g d player c0 rest hgs hv]
              exact root_go_eq _ _
                (fun c a ha => failsoft d (simChild g c player) a ⊤ false player ha)
                (fun c a => (minimax_ab_fin d (simChild g c player) a ⊤ false player).2)
                (c0 :: rest) ⊥ c0 (by decide)
        · have h1 : minimax_ab (d + 1) g ⊥ ⊤ true player
              = (toE (evaluate_position g player), none) := by
            simp only [minimax_ab]
            rw [if_pos hgs]
          have h2 : minimax_basic (d + 1) g true player
              = (toE (evaluate_position g player), none) := by
            simp only [minimax_basic]
            rw [if_pos hgs]
          rw [h1, h2]
  exact ⟨hmain, by simp only [get_best_move, if_pos, hmain, Bool.false_eq_true,
    if_false, if_true]⟩

/-! ### MCTS bookkeeping lemmas -/

theorem bp_update_move (r : Nat) (t : MTree) : (bp_update r t).move = t.move := by
  cases t; rfl

theorem bp_update_visits (r : Nat) (t : MTree) :
    (bp_update r t).visits = t.visits + 1 := by
  cases t; rfl

theorem bp_update_children (r : Nat) (t : MTree) :
    (bp_update r t).children = t.children := by
  cases t; rfl

theorem bp_update_untried (r : Nat) (t : MTree) :
    (bp_update r t).untried_moves = t.untried_moves := by
  cases t; rfl

theorem bp_update_state (r : Nat) (t : MTree) :
    (bp_update r t).game_state = t.game_state := by
  cases t; rfl

theorem backprop_move (r : Nat) : ∀ (p : List Nat) (t : MTree),
    (backprop r p t).move = t.move := by
  intro p t
  cases p with
  | nil => exact bp_update_move r t
  | cons i p2 => cases t; rfl

theorem backprop_visits (r : Nat) : ∀ (p : List Nat) (t : MTree),
    (backprop r p t).visits = t.visits + 1 := by
  intro p t
  cases p with
  | nil => exact bp_update_visits r t
  | cons i p2 => cases t; rfl

theorem backprop_state (r : Nat) : ∀ (p : List Nat) (t : MTree),
    (backprop r p t).game_state = t.game_state := by
  intro p t
  cases p with
  | nil => exact bp_update_state r t
  | cons i p2 => cases t; rfl

theorem backprop_untried (r : Nat) : ∀ (p : List Nat) (t : MTree),
    (backprop r p t).untried_moves = t.untried_moves := by
  intro p t
  cases p with
  | nil => exact bp_update_untried r t
  | cons i p2 => cases t; rfl

theorem map_listModify {α β : Type} (h : α → β) (f : α → α)
    (hf : ∀ a, h (f a) = h a) : ∀ (l : List α) (i : Nat),
    (listModify l i f).map h = l.map h := by
  intro l
  induction l with
  | nil => intro i; rfl
  | cons a l2 ih =>
      intro i
      cases i with
      | zero => simp [listModify, hf a]
      | succ j => simp [listModify, ih j]

theorem listModify_get? {α : Type} (f : α → α) : ∀ (l : List α) (i j : Nat),
    (listModify l i f).get? j
      = if i = j then (l.get? j).map f else l.get? j := by
  intro l
  induction l with
  | nil => intro i j; simp [listModify]
  | cons a l2 ih =>
      intro i j
      cases i with
      | zero =>
          cases j with
          | zero => simp [listModify]
          | succ j2 => simp [listModify]
      | succ i2 =>
          cases j with
          | zero => simp [listModify]
          | succ j2 => simpa [listModify] using ih i2 j2

theorem backprop_children_moves (r : Nat) : ∀ (p : List Nat) (t : MTree),
    (backprop r p t).children.map MTree.move = t.children.map MTree.move := by
  intro p t
  cases p with
  | nil =>
      rw [show backprop r [] t = bp_update r t from rfl, bp_update_children]
  | cons i p2 =>
      cases t with
      | node mv pwm g v w cs un =>
          show (bp_update r (.node mv pwm g v w
            (listModify cs i (backprop r p2)) un)).children.map MTree.move = _
          rw [bp_update_children]
          exact map_listModify MTree.move (backprop r p2) (backprop_move r p2) cs i

theorem listModify_oob {α : Type} : ∀ (l : List α) (i : Nat),
    l.length ≤ i → ∀ f : α → α, listModify l i f = l := by
  intro l
  induction l with
  | nil => intro i _ f; rfl
  | cons a l2 ih =>
      intro i hle f
      cases i with
      | zero => simp at hle
      | succ j =>
          simp only [listModify]
          rw [ih j (by simpa using hle) f]

/-- Lemma: `modifyAt` only ever applies its function to the node at the path. -/
theorem modifyAt_congr (f1 f2 : MTree → MTree) : ∀ (p : List Nat) (t : MTree),
    f1 (nodeAt p t) = f2 (nodeAt p t) → modifyAt f1 p t = modifyAt f2 p t := by
  intro p
  induction p with
  | nil => intro t h; exact h
  | cons i p2 ih =>
      intro t h
      cases t with
      | node mv pwm g v w cs un =>
          show MTree.node mv pwm g v w (listModify cs i (modifyAt f1 p2)) un
            = MTree.node mv pwm g v w (listModify cs i (modifyAt f2 p2)) un
          cases hc : cs.get? i with
          | none =>
              have hlen : cs.length ≤ i := List.get?_eq_none.mp hc
              rw [listModify_oob cs i hlen, listModify_oob cs i hlen]
          | some c =>
              have h2 : f1 (nodeAt p2 c) = f2 (nodeAt p2 c) := by
                have hn : nodeAt (i :: p2) (MTree.node mv pwm g v w cs un)
                    = nodeAt p2 c := by
                  show (match cs.get? i with
                    | some c2 => nodeAt p2 c2
                    | none => MTree.node mv pwm g v w cs un) = _
                  rw [hc]
                rwa [hn] at h
              have hmod : ∀ (l : List MTree) (i2 : Nat), l.get? i2 = some c →
                  listModify l i2 (modifyAt f1 p2)
                    = listModify l i2 (modifyAt f2 p2) := by
                intro l
                induction l with
                | nil => intro i2 hi; simp at hi
                | cons a l2 ih2 =>
                    intro i2 hi
                    cases i2 with
                    | zero =>
                        have ha : a = c := by simpa using hi
                        simp only [listModify]
                        rw [ha, ih c h2]
                    | succ j =>
                        simp only [listModify]
                        rw [ih2 j (by simpa using hi)]
              rw [hmod cs i hc]

theorem expand_node_move (t : MTree) : ∀ t2, expand_node t = some t2 →
    t2.move = t.move := by
  intro t2 h
  cases t with
  | node mv pwm g v w cs un =>
      unfold expand_node at h
      cases hl : un.getLast? with
      | none => rw [show MTree.untried_moves (.node mv pwm g v w cs un) = un from rfl, hl] at h; exact Option.noConfusion h
      | some m =>
          rw [show MTree.untried_moves (.node mv pwm g v w cs un) = un from rfl, hl] at h
          simp only at h
          cases h
          rfl

theorem expand_node_visits (t : MTree) : ∀ t2, expand_node t = some t2 →
    t2.visits = t.visits := by
  intro t2 h
  cases t with
  | node mv pwm g v w cs un =>
      unfold expand_node at h
      cases hl : un.getLast? with
      | none => rw [show MTree.untried_moves (.node mv pwm g v w cs un) = un from rfl, hl] at h; exact Option.noConfusion h
      | some m =>
          rw [show MTree.untried_moves (.node mv pwm g v w cs un) = un from rfl, hl] at h
          simp only at h
          cases h
          rfl

theorem expand_node_state (t : MTree) : ∀ t2, expand_node t = some t2 →
    t2.game_state = t.game_state := by
  intro t2 h
  cases t with
  | node mv pwm g v w cs un =>
      unfold expand_node at h
      cases hl : un.getLast? with
      | none => rw [show MTree.untried_moves (.node mv pwm g v w cs un) = un from rfl, hl] at h; exact Option.noConfusion h
      | some m =>
          rw [show MTree.untried_moves (.node mv pwm g v w cs un) = un from rfl, hl] at h
          simp only at h
          cases h
          rfl

theorem expandAt_move : ∀ (p : List Nat) (t : MTree),
    (expandAt p t).move = t.move := by
  intro p t
  cases p with
  | nil =>
      show ((expand_node t).getD t).move = t.move
      cases he : expand_node t with
      | none => rfl
      | some t2 => exact expand_node_move t t2 he
  | cons i p2 => cases t; rfl

theorem expandAt_visits : ∀ (p : List Nat) (t : MTree),
    (expandAt p t).visits = t.visits := by
  intro p t
  cases p with
  | nil =>
      show ((expand_node t).getD t).visits = t.visits
      cases he : expand_node t with
      | none => rfl
      | some t2 => exact expand_node_visits t t2 he
  | cons i p2 => cases t; rfl

theorem expandAt_state : ∀ (p : List Nat) (t : MTree),
    (expandAt p t).game_state = t.game_state := by
  intro p t
  cases p with
  | nil =>
      show ((expand_node t).getD t).game_state = t.game_state
      cases he : expand_node t with
      | none => rfl
      | some t2 => exact expand_node_state t t2 he
  | cons i p2 => cases t; rfl

theorem mcts_iteration_visits (tape : Nat → Nat) (fuel : Nat) (t : MTree)
    (k : Nat) : (mcts_iteration tape fuel t k).1.visits = t.visits + 1 := by
  unfold mcts_iteration
  simp only [backprop_visits]
  by_cases ht : is_terminal (nodeAt (selectPath tape fuel t k).1 t)
  · rw [if_pos ht]
  · rw [if_neg ht]
    cases he : expand_node (nodeAt (selectPath tape fuel t k).1 t) with
    | none => rfl
    | some nd2 =>
        simp only
        have heq : modifyAt (fun _ => nd2) (selectPath tape fuel t k).1 t
            = expandAt (selectPath tape fuel t k).1 t := by
          apply modifyAt_congr
          show nd2 = (expand_node (nodeAt (selectPath tape fuel t k).1 t)).getD _
          rw [he]
          rfl
        rw [heq, expandAt_visits]

theorem run_simulations_visits (tape : Nat → Nat) (N : Nat) (root : MTree) :
    (run_simulations tape N root).1.visits = root.visits + N := by
  unfold run_simulations
  have key : ∀ (l : List Nat) (acc : MTree × Nat),
      (l.foldl (fun a _ => mcts_iteration tape (N + 1) a.1 a.2) acc).1.visits
        = acc.1.visits + l.length := by
    intro l
    induction l with
    | nil => intro acc; rfl
    | cons x l2 ih =>
        intro acc
        rw [List.foldl_cons, ih, mcts_iteration_visits]
        simp only [List.length_cons]
        omega
  rw [key, List.length_range]

theorem isPath_cons {i : Nat} {p : List Nat} {t : MTree} :
    IsPath (i :: p) t → ∃ c, t.children.get? i = some c ∧ IsPath p c := by
  intro h
  unfold IsPath visitsAt? at h
  cases hc : t.children.get? i with
  | none => rw [hc] at h; simp at h
  | some c => rw [hc] at h; exact ⟨c, rfl, h⟩

theorem backprop_visitsAt (r : Nat) : ∀ (p q : List Nat) (t : MTree),
    IsPath p t → q <+: p →
    visitsAt? q (backprop r p t) = (visitsAt? q t).map (· + 1) := by
  intro p
  induction p with
  | nil =>
      intro q t _ hq
      have hq0 : q = [] := List.prefix_nil.mp hq
      subst hq0
      show visitsAt? [] (bp_update r t) = _
      rw [show visitsAt? [] (bp_update r t) = some (bp_update r t).visits from rfl,
        bp_update_visits]
      rfl
  | cons i p2 ih =>
      intro q t hp hq
      obtain ⟨c, hc, hpc⟩ := isPath_cons hp
      cases t with
      | node mv pwm g v w cs un =>
          cases q with
          | nil => rfl
          | cons j q2 =>
              obtain ⟨hji, hq2⟩ := List.cons_prefix_cons.mp hq
              subst hji
              have hc2 : cs.get? j = some c := hc
              have hcs : (listModify cs j (backprop r p2)).get? j
                  = some (backprop r p2 c) := by
                rw [listModify_get?, if_pos rfl, hc2]
                rfl
              show (match (listModify cs j (backprop r p2)).get? j with
                    | some c2 => visitsAt? q2 c2
                    | none => none) = _
              rw [hcs]
              show visitsAt? q2 (backprop r p2 c)
                = (visitsAt? (j :: q2) (MTree.node mv pwm g v w cs un)).map (· + 1)
              rw [ih q2 c hpc hq2]
              have hrhs : visitsAt? (j :: q2) (MTree.node mv pwm g v w cs un)
                  = visitsAt? q2 c := by
                show (match cs.get? j with
                      | some c2 => visitsAt? q2 c2
                      | none => none) = _
                rw [hc2]
              rw [hrhs]

/-- C6: backpropagation along an existing path increments the visit counter
of the node it starts from and of every node above it (every prefix of the
path, the root included) by exactly one; consequently after `N` iterations
of the `MCTSPlayer.get_move` loop the visit counter of the root equals `N`. -/
theorem c6_backprop_counts (r : Nat) (p q : List Nat) (t : MTree)
    (tape : Nat → Nat) (N : Nat) (g : Connect4) (player : Nat)
    (hp : IsPath p t) (hq : q <+: p) :
    visitsAt? q (backprop r p t) = (visitsAt? q t).map (· + 1) ∧
    (run_simulations tape N (mkNode g none (some (3 - player)))).1.visits = N := by
  constructor
  · exact backprop_visitsAt r p q t hp hq
  · rw [run_simulations_visits,
      show (mkNode g none (some (3 - player))).visits = 0 from rfl]
    exact Nat.zero_add N

/-- C6 witness: backpropagating a player-2 result at the root of a fresh
tree, and a one-simulation run. -/
theorem c6_backprop_counts_witness :
    (IsPath [] (mkNode G0 none (some 2)) ∧ [] <+: ([] : List Nat)) ∧
    (visitsAt? [] (backprop 2 [] (mkNode G0 none (some 2)))
        = (visitsAt? [] (mkNode G0 none (some 2))).map (· + 1) ∧
      (run_simulations tape0 1 (mkNode G0 none (some (3 - 1)))).1.visits = 1) :=
  ⟨⟨rfl, List.nil_prefix⟩,
   c6_backprop_counts 2 [] [] (mkNode G0 none (some 2)) tape0 1 G0 1
     rfl List.nil_prefix⟩

theorem RootShape_mkNode (g : Connect4) (mv pwm : Option Nat) :
    RootShape (get_valid_moves g) (mkNode g mv pwm) := by
  refine ⟨(get_valid_moves g).length, le_refl _, ?_, ?_⟩
  · rw [List.take_length]
    rfl
  · rw [List.drop_length]
    rfl

theorem expand_node_shape (t t2 : MTree) (he : expand_node t = some t2) :
    ∃ m, t.untried_moves.getLast? = some m ∧
      t2.untried_moves = t.untried_moves.dropLast ∧
      t2.children.map MTree.move = t.children.map MTree.move ++ [some m] := by
  cases t with
  | node mv pwm g v w cs un =>
      unfold expand_node at he
      cases hl : un.getLast? with
      | none =>
          rw [show MTree.untried_moves (.node mv pwm g v w cs un) = un from rfl,
            hl] at he
          exact Option.noConfusion he
      | some m =>
          rw [show MTree.untried_moves (.node mv pwm g v w cs un) = un from rfl,
            hl] at he
          simp only at he
          cases he
          refine ⟨m, hl, rfl, ?_⟩
          simp only [MTree.children, mkNode, List.map_append, List.map_cons,
            List.map_nil, MTree.move]

theorem RootShape_expand (v0 : List Nat) (t : MTree) (h : RootShape v0 t) :
    RootShape v0 ((expand_node t).getD t) := by
  cases he : expand_node t with
  | none => exact h
  | some t2 =>
      obtain ⟨k, hk, hun, hcm⟩ := h
      obtain ⟨m, hm, hun2, hcm2⟩ := expand_node_shape t t2 he
      have hkpos : 0 < k := by
        by_contra hk0
        have : k = 0 := Nat.eq_zero_of_not_pos hk0
        subst this
        rw [hun] at hm
        simp at hm
      have hk1 : k - 1 < v0.length := by omega
      have htake : v0.take k = v0.take (k - 1) ++ [v0[k - 1]] := by
        have h2 := List.take_succ (l := v0) (n := k - 1)
        rw [List.getElem?_eq_getElem hk1] at h2
        rw [show k - 1 + 1 = k from by omega] at h2
        simpa using h2
      refine ⟨k - 1, by omega, ?_, ?_⟩
      · simp only [Option.getD_some]
        rw [hun2, hun, htake, List.dropLast_concat]
      · have hmv : m = v0[k - 1] := by
          rw [hun, htake, List.getLast?_concat] at hm
          exact (Option.some.injEq _ _ ▸ hm).symm
        simp only [Option.getD_some]
        rw [hcm2, hcm, hmv]
        have hdrop : v0.drop (k - 1) = v0[k - 1] :: v0.drop k := by
          have : k - 1 + 1 = k := by omega
          rw [List.drop_eq_getElem_cons hk1, this]
        rw [hdrop, List.reverse_cons, List.map_append]
        rfl

theorem RootShape_expandAt (v0 : List Nat) : ∀ (p : List Nat) (t : MTree),
    RootShape v0 t → RootShape v0 (expandAt p t) := by
  intro p t h
  cases p with
  | nil => exact RootShape_expand v0 t h
  | cons i p2 =>
      cases t with
      | node mv pwm g v w cs un =>
          obtain ⟨k, hk, hun, hcm⟩ := h
          refine ⟨k, hk, hun, ?_⟩
          show (listModify cs i (expandAt p2)).map MTree.move = _
          rw [map_listModify MTree.move (expandAt p2) (expandAt_move p2) cs i]
          exact hcm

theorem RootShape_backprop (v0 : List Nat) (r : Nat) (p : List Nat)
    (t : MTree) (h : RootShape v0 t) : RootShape v0 (backprop r p t) := by
  obtain ⟨k, hk, hun, hcm⟩ := h
  exact ⟨k, hk, by rw [backprop_untried]; exact hun,
    by rw [backprop_children_moves]; exact hcm⟩

theorem RootShape_iteration (v0 : List Nat) (tape : Nat → Nat) (fuel : Nat)
    (t : MTree) (k : Nat) (h : RootShape v0 t) :
    RootShape v0 (mcts_iteration tape fuel t k).1 := by
  unfold mcts_iteration
  simp only
  apply RootShape_backprop
  by_cases ht : is_terminal (nodeAt (selectPath tape fuel t k).1 t)
  · rw [if_pos ht]
    exact h
  · rw [if_neg ht]
    cases he : expand_node (nodeAt (selectPath tape fuel t k).1 t) with
    | none => exact h
    | some nd2 =>
        simp only
        have heq : modifyAt (fun _ => nd2) (selectPath tape fuel t k).1 t
            = expandAt (selectPath tape fuel t k).1 t := by
          apply modifyAt_congr
          show nd2 = (expand_node (nodeAt (selectPath tape fuel t k).1 t)).getD _
          rw [he]
          rfl
        rw [heq]
        exact RootShape_expandAt v0 _ t h

theorem mcts_iteration_state (tape : Nat → Nat) (fuel : Nat) (t : MTree)
    (k : Nat) : (mcts_iteration tape fuel t k).1.game_state = t.game_state := by
  unfold mcts_iteration
  simp only [backprop_state]
  by_cases ht : is_terminal (nodeAt (selectPath tape fuel t k).1 t)
  · rw [if_pos ht]
  · rw [if_neg ht]
    cases he : expand_node (nodeAt (selectPath tape fuel t k).1 t) with
    | none => rfl
    | some nd2 =>
        simp only
        have heq : modifyAt (fun _ => nd2) (selectPath tape fuel t k).1 t
            = expandAt (selectPath tape fuel t k).1 t := by
          apply modifyAt_congr
          show nd2 = (expand_node (nodeAt (selectPath tape fuel t k).1 t)).getD _
          rw [he]
          rfl
        rw [heq, expandAt_state]

theorem run_root_shape (tape : Nat → Nat) (N : Nat) (g : Connect4)
    (pwm : Option Nat) :
    RootShape (get_valid_moves g) (run_simulations tape N (mkNode g none pwm)).1 ∧
    (run_simulations tape N (mkNode g none pwm)).1.game_state = g := by
  unfold run_simulations
  have key : ∀ (l : List Nat) (acc : MTree × Nat),
      RootShape (get_valid_moves g) acc.1 → acc.1.game_state = g →
      RootShape (get_valid_moves g)
          (l.foldl (fun a _ => mcts_iteration tape (N + 1) a.1 a.2) acc).1 ∧
        (l.foldl (fun a _ => mcts_iteration tape (N + 1) a.1 a.2) acc).1.game_state
          = g := by
    intro l
    induction l with
    | nil => intro acc h1 h2; exact ⟨h1, h2⟩
    | cons x l2 ih =>
        intro acc h1 h2
        rw [List.foldl_cons]
        exact ih _ (RootShape_iteration _ tape _ acc.1 acc.2 h1)
          (by rw [mcts_iteration_state]; exact h2)
  exact key _ _ (RootShape_mkNode g none pwm) rfl

theorem basicMaxGo_col_mem (f : Nat → EInt) : ∀ (cols : List Nat) (b : EInt)
    (bc : Nat), ∃ c2, (basicMaxGo f cols b bc).2 = some c2 ∧
      (c2 = bc ∨ c2 ∈ cols) := by
  intro cols
  induction cols with
  | nil => intro b bc; exact ⟨bc, rfl, Or.inl rfl⟩
  | cons c r ih =>
      intro b bc
      by_cases h : b < f c
      · obtain ⟨c2, h2, hd⟩ := ih (f c) c
        refine ⟨c2, by simpa [basicMaxGo, if_pos h] using h2, ?_⟩
        rcases hd with rfl | hd
        · exact Or.inr (List.mem_cons_self _ _)
        · exact Or.inr (List.mem_cons_of_mem _ hd)
      · obtain ⟨c2, h2, hd⟩ := ih b bc
        refine ⟨c2, by simpa [basicMaxGo, if_neg h] using h2, ?_⟩
        rcases hd with rfl | hd
        · exact Or.inl rfl
        · exact Or.inr (List.mem_cons_of_mem _ hd)

theorem basicMinGo_col_mem (f : Nat → EInt) : ∀ (cols : List Nat) (b : EInt)
    (bc : Nat), ∃ c2, (basicMinGo f cols b bc).2 = some c2 ∧
      (c2 = bc ∨ c2 ∈ cols) := by
  intro cols
  induction cols with
  | nil => intro b bc; exact ⟨bc, rfl, Or.inl rfl⟩
  | cons c r ih =>
      intro b bc
      by_cases h : f c < b
      · obtain ⟨c2, h2, hd⟩ := ih (f c) c
        refine ⟨c2, by simpa [basicMinGo, if_pos h] using h2, ?_⟩
        rcases hd with rfl | hd
        · exact Or.inr (List.mem_cons_self _ _)
        · exact Or.inr (List.mem_cons_of_mem _ hd)
      · obtain ⟨c2, h2, hd⟩ := ih b bc
        refine ⟨c2, by simpa [basicMinGo, if_neg h] using h2, ?_⟩
        rcases hd with rfl | hd
        · exact Or.inl rfl
        · exact Or.inr (List.mem_cons_of_mem _ hd)

theorem abMaxGo_col_mem (f : Nat → EInt → EInt) (beta : EInt) :
    ∀ (cols : List Nat) (alpha b : EInt) (bc : Nat),
    ∃ c2, (abMaxGo f beta cols alpha b bc).2 = some c2 ∧
      (c2 = bc ∨ c2 ∈ cols) := by
  intro cols
  induction cols with
  | nil => intro alpha b bc; exact ⟨bc, rfl, Or.inl rfl⟩
  | cons c r ih =>
      intro alpha b bc
      simp only [abMaxGo]
      by_cases hcut : beta ≤ max alpha (if b < f c alpha then f c alpha else b)
      · rw [if_pos hcut]
        by_cases h : b < f c alpha
        · exact ⟨c, by simp [if_pos h], Or.inr (List.mem_cons_self _ _)⟩
        · exact ⟨bc, by simp [if_neg h], Or.inl rfl⟩
      · rw [if_neg hcut]
        by_cases h : b < f c alpha
        · obtain ⟨c2, h2, hd⟩ := ih _ _ c
          refine ⟨c2, by simpa [if_pos h] using h2, ?_⟩
          rcases hd with rfl | hd
          · exact Or.inr (List.mem_cons_self _ _)
          · exact Or.inr (List.mem_cons_of_mem _ hd)
        · obtain ⟨c2, h2, hd⟩ := ih _ _ bc
          refine ⟨c2, by simpa [if_neg h] using h2, ?_⟩
          rcases hd with rfl | hd
          · exact Or.inl rfl
          · exact Or.inr (List.mem_cons_of_mem _ hd)

theorem pick_best_child_spec : ∀ (r : List MTree) (acc : MTree),
    (acc :: r).Pairwise (fun a b => b.move.getD 0 < a.move.getD 0) →
    (pick_best_child acc r = acc ∨
      (pick_best_child acc r ∈ r ∧ acc.visits < (pick_best_child acc r).visits)) ∧
    (acc.visits ≤ (pick_best_child acc r).visits ∧
      ∀ x ∈ r, x.visits ≤ (pick_best_child acc r).visits) ∧
    (∀ x, (x = acc ∨ x ∈ r) → x.visits = (pick_best_child acc r).visits →
      x.move.getD 0 ≤ (pick_best_child acc r).move.getD 0) := by
  intro r
  induction r with
  | nil =>
      intro acc _
      refine ⟨Or.inl rfl, ⟨le_refl _, by simp⟩, ?_⟩
      intro x hx _
      rcases hx with rfl | hx
      · exact le_refl _
      · simp at hx
  | cons a r2 ih =>
      intro acc hpw
      obtain ⟨hacc, hpw1⟩ := List.pairwise_cons.mp hpw
      obtain ⟨ha, hpw2⟩ := List.pairwise_cons.mp hpw1
      have hstep : pick_best_child acc (a :: r2)
          = pick_best_child (if acc.visits < a.visits then a else acc) r2 := rfl
      by_cases h : acc.visits < a.visits
      · have hacc2 : (if acc.visits < a.visits then a else acc) = a := if_pos h
        rw [hstep, hacc2]
        obtain ⟨hi, ⟨hii1, hii2⟩, hiii⟩ := ih a hpw1
        refine ⟨?_, ⟨?_, ?_⟩, ?_⟩
        · rcases hi with he | ⟨hm, hv⟩
          · exact Or.inr ⟨by rw [he]; exact List.mem_cons_self _ _, by rw [he]; exact h⟩
          · exact Or.inr ⟨List.mem_cons_of_mem _ hm, lt_trans h hv⟩
        · exact le_trans h.le hii1
        · intro x hx
          rcases List.mem_cons.mp hx with rfl | hx
          · exact hii1
          · exact hii2 x hx
        · intro x hx htie
          rcases hx with rfl | hx
          · exfalso
            have : x.visits < (pick_best_child a r2).visits :=
              lt_of_lt_of_le h hii1
            rw [htie] at this
            exact lt_irrefl _ this
          · rcases List.mem_cons.mp hx with rfl | hx
            · exact hiii x (Or.inl rfl) htie
            · exact hiii x (Or.inr hx) htie
      · have hacc2 : (if acc.visits < a.visits then a else acc) = acc := if_neg h
        rw [hstep, hacc2]
        have hpw3 : (acc :: r2).Pairwise (fun x y => y.move.getD 0 < x.move.getD 0) := by
          rw [List.pairwise_cons]
          exact ⟨fun y hy => hacc y (List.mem_cons_of_mem _ hy), hpw2⟩
        obtain ⟨hi, ⟨hii1, hii2⟩, hiii⟩ := ih acc hpw3
        refine ⟨?_, ⟨?_, ?_⟩, ?_⟩
        · rcases hi with he | ⟨hm, hv⟩
          · exact Or.inl he
          · exact Or.inr ⟨List.mem_cons_of_mem _ hm, hv⟩
        · exact hii1
        · intro x hx
          rcases List.mem_cons.mp hx with rfl | hx
          · exact le_trans (not_lt.mp h) hii1
          · exact hii2 x hx
        · intro x hx htie
          rcases hx with rfl | hx
          · exact hiii x (Or.inl rfl) htie
          · rcases List.mem_cons.mp hx with rfl | hx
            · rcases hi with he | ⟨_, hv⟩
              · rw [he]
                exact le_of_lt (hacc x (List.mem_cons_self _ _))
              · exfalso
                have hxa : x.visits ≤ acc.visits := not_lt.mp h
                rw [htie] at hxa
                exact absurd hv (not_lt.mpr hxa)
            · exact hiii x (Or.inr hx) htie

/-- Unfolding of `mcts_get_move` (definitional). -/
theorem mcts_get_move_eq (tape : Nat → Nat) (N : Nat) (g : Connect4)
    (player : Nat) :
    mcts_get_move tape N g player =
      match (run_simulations tape N (mkNode g none (some (3 - player)))).1.children with
      | [] =>
          if get_valid_moves
              (run_simulations tape N (mkNode g none (some (3 - player)))).1.game_state
              ≠ [] then
            (get_valid_moves
              (run_simulations tape N (mkNode g none (some (3 - player)))).1.game_state).getD
              (tape (run_simulations tape N (mkNode g none (some (3 - player)))).2 %
                (get_valid_moves
                  (run_simulations tape N (mkNode g none (some (3 - player)))).1.game_state).length)
              0
          else 0
      | c :: cs => (pick_best_child c cs).move.getD 0 := rfl

theorem mcts_get_move_eq_cons (tape : Nat → Nat) (N : Nat) (g : Connect4)
    (player : Nat) (c : MTree) (cs : List MTree)
    (hcs : (run_simulations tape N (mkNode g none (some (3 - player)))).1.children
      = c :: cs) :
    mcts_get_move tape N g player = (pick_best_child c cs).move.getD 0 := by
  rw [mcts_get_move_eq, hcs]

theorem mcts_get_move_eq_nil (tape : Nat → Nat) (N : Nat) (g : Connect4)
    (player : Nat)
    (hcs : (run_simulations tape N (mkNode g none (some (3 - player)))).1.children
      = []) :
    mcts_get_move tape N g player =
      if get_valid_moves
          (run_simulations tape N (mkNode g none (some (3 - player)))).1.game_state
          ≠ [] then
        (get_valid_moves
          (run_simulations tape N (mkNode g none (some (3 - player)))).1.game_state).getD
          (tape (run_simulations tape N (mkNode g none (some (3 - player)))).2 %
            (get_valid_moves
              (run_simulations tape N (mkNode g none (some (3 - player)))).1.game_state).length)
          0
      else 0 := by
  rw [mcts_get_move_eq, hcs]

theorem children_moves_desc (v0 : List Nat) (t : MTree)
    (hs : List.Sorted (· < ·) v0) (h : RootShape v0 t) :
    t.children.Pairwise (fun a b => b.move.getD 0 < a.move.getD 0) := by
  obtain ⟨k, _, _, hcm⟩ := h
  have h1 : (v0.drop k).Pairwise (· < ·) := hs.sublist (List.drop_sublist k v0)
  have h2 : ((v0.drop k).reverse).Pairwise (fun a b => b < a) :=
    List.pairwise_reverse.mpr h1
  have h3 : (((v0.drop k).reverse).map (some : Nat → Option Nat)).Pairwise
      (fun x y => y.getD 0 < x.getD 0) := by
    rw [List.pairwise_map]
    simpa using h2
  rw [← hcm] at h3
  exact (List.pairwise_map).mp h3

/-- C2 counterexample: with configured depth 0 both minimax variants return
`none` even on the fresh (non-terminal) board, contradicting "never none
for any configured depth". -/
theorem c2_counterexample :
    get_game_state G0 = 0 ∧ get_valid_moves G0 ≠ [] ∧
    get_best_move true 0 G0 1 = none ∧ get_best_move false 0 G0 1 = none := by
  decide

/-- C2 (amended): on a non-terminal state with a legal column, the column
returned by `MinimaxPlayer.get_best_move` (either pruning flag, any depth
at least 1) is some member of `get_valid_moves`, and the column returned by
`MCTSPlayer.get_move` (any tape, any simulation budget) is a member of
`get_valid_moves`. -/
theorem c2_legal_column (g : Connect4) (depth player N : Nat)
    (tape : Nat → Nat) (hgs : get_game_state g = 0)
    (hne : get_valid_moves g ≠ []) (hd : 1 ≤ depth) :
    (∃ c, get_best_move true depth g player = some c ∧ c ∈ get_valid_moves g) ∧
    (∃ c, get_best_move false depth g player = some c ∧ c ∈ get_valid_moves g) ∧
    mcts_get_move tape N g player ∈ get_valid_moves g := by
  obtain ⟨d, rfl⟩ : ∃ d, depth = d + 1 := by
    cases depth with
    | zero => omega
    | succ d => exact ⟨d, rfl⟩
  obtain ⟨c0, rest, hv⟩ : ∃ c0 rest, get_valid_moves g = c0 :: rest := by
    cases hval : get_valid_moves g with
    | nil => exact absurd hval hne
    | cons c0 rest => exact ⟨c0, rest, rfl⟩
  refine ⟨?_, ?_, ?_⟩
  · show ∃ c, (minimax_ab (d + 1) g ⊥ ⊤ true player).2 = some c
      ∧ c ∈ get_valid_moves g
    rw [minimax_ab_succ_max g d player c0 rest ⊥ ⊤ hgs hv]
    obtain ⟨c2, h2, hmem⟩ := abMaxGo_col_mem _ ⊤ (c0 :: rest) ⊥ ⊥ c0
    refine ⟨c2, h2, ?_⟩
    rw [hv]
    rcases hmem with rfl | hmem
    · exact List.mem_cons_self _ _
    · exact hmem
  · show ∃ c, (minimax_basic (d + 1) g true player).2 = some c
      ∧ c ∈ get_valid_moves g
    rw [minimax_basic_succ_max g d player c0 rest hgs hv]
    obtain ⟨c2, h2, hmem⟩ := basicMaxGo_col_mem _ (c0 :: rest) ⊥ c0
    refine ⟨c2, h2, ?_⟩
    rw [hv]
    rcases hmem with rfl | hmem
    · exact List.mem_cons_self _ _
    · exact hmem
  · obtain ⟨hshape, hstate⟩ := run_root_shape tape N g (some (3 - player))
    cases hcs : (run_simulations tape N (mkNode g none (some (3 - player)))).1.children with
    | nil =>
        rw [mcts_get_move_eq_nil tape N g player hcs]
        simp only [hstate]
        rw [if_pos hne, hv]
        have hlt : tape (run_simulations tape N (mkNode g none (some (3 - player)))).2
            % (c0 :: rest).length < (c0 :: rest).length :=
          Nat.mod_lt _ (by simp)
        rw [List.getD_eq_getElem _ _ hlt]
        exact List.getElem_mem hlt
    | cons c cs =>
        rw [mcts_get_move_eq_cons tape N g player c cs hcs]
        have hdesc : (c :: cs).Pairwise (fun a b => b.move.getD 0 < a.move.getD 0) := by
          have h := children_moves_desc (get_valid_moves g) _
            (get_valid_moves_sorted g) hshape
          rwa [hcs] at h
        have hmem : pick_best_child c cs ∈ c :: cs := by
          rcases (pick_best_child_spec cs c hdesc).1 with he | ⟨hm, _⟩
          · rw [he]; exact List.mem_cons_self _ _
          · exact List.mem_cons_of_mem _ hm
        obtain ⟨k, _, _, hcm⟩ := hshape
        rw [hcs] at hcm
        have hmv : (pick_best_child c cs).move ∈ (c :: cs).map MTree.move :=
          List.mem_map_of_mem _ hmem
        rw [hcm] at hmv
        obtain ⟨m, hm2, hmeq⟩ := List.mem_map.mp hmv
        rw [← hmeq]
        show m ∈ get_valid_moves g
        exact List.mem_of_mem_drop (List.mem_reverse.mp hm2)

/-- C2 witness: fresh board, depth 1, one simulation. -/
theorem c2_legal_column_witness :
    (get_game_state G0 = 0 ∧ get_valid_moves G0 ≠ [] ∧ 1 ≤ 1) ∧
    ((∃ c, get_best_move true 1 G0 1 = some c ∧ c ∈ get_valid_moves G0) ∧
     (∃ c, get_best_move false 1 G0 1 = some c ∧ c ∈ get_valid_moves G0) ∧
     mcts_get_move tape0 1 G0 1 ∈ get_valid_moves G0) :=
  ⟨⟨by decide, by decide, le_refl 1⟩,
   c2_legal_column G0 1 1 1 tape0 (by decide) (by decide) (le_refl 1)⟩

/-- C3 counterexample: two simulations on the fresh board expand columns 6
then 5, leaving the two root children tied at one visit each;
`MCTSPlayer.get_move` returns 6 (the first-created child, the LARGEST
column), while the ascending tie-break of the claim predicts 5. -/
theorem c3_counterexample :
    mcts_get_move tape0 2 G0 1 = 6 ∧
    (run_simulations tape0 2 (mkNode G0 none (some 2))).1.children.map
      MTree.visits = [1, 1] ∧
    (run_simulations tape0 2 (mkNode G0 none (some 2))).1.children.map
      MTree.move = [some 6, some 5] ∧
    claim_tie_pick ((run_simulations tape0 2 (mkNode G0 none (some 2))).1.children)
      = some 5 ∧
    (6 : Nat) ≠ 5 := by
  decide

/-- C3 (amended): after the simulation budget, the returned column is the
move of the root child with the greatest visit count, and when several
children tie at that count the returned move is the FIRST-CREATED tied
child, which (children being created in descending column order, by
popping untried moves from the end) is the tied child with the LARGEST
column index. -/
theorem c3_amended_first_created (tape : Nat → Nat) (N : Nat) (g : Connect4)
    (player : Nat) (x c : MTree) (cs : List MTree)
    (hcs : (run_simulations tape N (mkNode g none (some (3 - player)))).1.children
      = c :: cs)
    (hx : x ∈ c :: cs) :
    mcts_get_move tape N g player = (pick_best_child c cs).move.getD 0 ∧
    x.visits ≤ (pick_best_child c cs).visits ∧
    (x.visits = (pick_best_child c cs).visits →
      x.move.getD 0 ≤ (pick_best_child c cs).move.getD 0) := by
  have hdesc : (c :: cs).Pairwise (fun a b => b.move.getD 0 < a.move.getD 0) := by
    have h := children_moves_desc (get_valid_moves g) _
      (get_valid_moves_sorted g) (run_root_shape tape N g (some (3 - player))).1
    rwa [hcs] at h
  obtain ⟨_, ⟨hb1, hb2⟩, hb3⟩ := pick_best_child_spec cs c hdesc
  refine ⟨?_, ?_, ?_⟩
  · exact mcts_get_move_eq_cons tape N g player c cs hcs
  · rcases List.mem_cons.mp hx with rfl | hx2
    · exact hb1
    · exact hb2 x hx2
  · intro htie
    rcases List.mem_cons.mp hx with rfl | hx2
    · exact hb3 x (Or.inl rfl) htie
    · exact hb3 x (Or.inr hx2) htie

/-- C3 witness: the amended tie-break at the concrete two-simulation run. -/
theorem c3_amended_first_created_witness :
    (T3.children = c3c :: c3cs ∧ c3c ∈ c3c :: c3cs) ∧
    (mcts_get_move tape0 2 G0 1 = (pick_best_child c3c c3cs).move.getD 0 ∧
     c3c.visits ≤ (pick_best_child c3c c3cs).visits ∧
     (c3c.visits = (pick_best_child c3c c3cs).visits →
       c3c.move.getD 0 ≤ (pick_best_child c3c c3cs).move.getD 0)) :=
  ⟨⟨rfl, List.mem_cons_self _ _⟩,
   c3_amended_first_created tape0 2 G0 1 c3c c3c c3cs rfl
     (List.mem_cons_self _ _)⟩

end C4
